import Mathlib

/-!
Shallow embedding of the AgentRaccoon pipeline execution engine and its
result cache, covering:

* `src/backend/src/utils/dataTransform.ts` (class `DataTransform`)
* `src/backend/src/cache/CacheManager.ts` (class `CacheManager`)
* the pipeline engine file (class `PipelineEngine`)

Rows are JavaScript objects mapping field names to scalar values; we model
them as association lists over a JS-like scalar `Value` type.  The nondeterministic
or non-modellable JavaScript features (dynamic `Function` construction for
custom nodes and calculate expressions, regex matching, the database fetch)
are abstracted as oracle functions carried in an `EngineCtx` record; time
(`Date.now()`) is passed in explicitly as integer parameters.
-/

namespace AgentRaccoon

/-- JS-like scalar value stored in a row field.  `vNaN` models the IEEE NaN
produced by failed numeric coercions; `vDate` keeps the argument of
`new Date(value)` opaque (no claim depends on date semantics). -/
inductive Value where
  | vNull
  | vUndef
  | vNum (q : ℚ)
  | vNaN
  | vStr (s : String)
  | vBool (b : Bool)
  | vDate (raw : String)
  deriving DecidableEq, Repr

/-- A row is a JS object: field names to values, in insertion order. -/
abbrev Row := List (String × Value)

/-- Field access `row[field]`; a missing field reads as `undefined`. -/
def Row.get (row : Row) (field : String) : Value :=
  match row.find? (fun p => p.1 == field) with
  | some p => p.2
  | none => Value.vUndef

/-- Field assignment `row[field] = v` (replace in place, else append). -/
def Row.set (row : Row) (field : String) (v : Value) : Row :=
  if row.any (fun p => p.1 == field) then
    row.map (fun p => if p.1 == field then (p.1, v) else p)
  else
    row ++ [(field, v)]

/-- Field removal `delete row[field]`. -/
def Row.del (row : Row) (field : String) : Row :=
  row.filter (fun p => p.1 != field)

/-- JS `Number(v)` coercion; `none` models `NaN`.  String parsing is
approximated by integer parsing (claims use only numeric fields). -/
def toNumber : Value → Option ℚ
  | .vNull => some 0
  | .vUndef => none
  | .vNum q => some q
  | .vNaN => none
  | .vStr s => if s.trim = "" then some 0 else (s.trim.toInt?).map (fun i => (i : ℚ))
  | .vBool b => some (if b then 1 else 0)
  | .vDate _ => none

/-- JS `String(v)` coercion (number formatting approximated via `ℚ`). -/
def toStr : Value → String
  | .vNull => "null"
  | .vUndef => "undefined"
  | .vNum q => if q.den = 1 then toString q.num else toString q
  | .vNaN => "NaN"
  | .vStr s => s
  | .vBool b => if b then "true" else "false"
  | .vDate raw => raw

/-- JS truthiness. -/
def Value.truthy : Value → Bool
  | .vNull => false
  | .vUndef => false
  | .vNum q => q != 0
  | .vNaN => false
  | .vStr s => s ≠ ""
  | .vBool b => b
  | .vDate _ => true

/-- Truthiness of an optional string config field (absent or empty is falsy). -/
def strOptTruthy : Option String → Bool
  | none => false
  | some s => s ≠ ""

/-- JS loose equality `==` restricted to the scalar values we model:
null and undefined are mutually equal and equal to nothing else; strings
compare verbatim against strings (a date object coerces to its string);
any remaining mixed comparison goes through numeric coercion, with NaN
unequal to everything. -/
def looseEq (a b : Value) : Bool :=
  match a, b with
  | .vNull, .vNull => true
  | .vNull, .vUndef => true
  | .vUndef, .vNull => true
  | .vUndef, .vUndef => true
  | .vNull, _ => false
  | .vUndef, _ => false
  | _, .vNull => false
  | _, .vUndef => false
  | .vStr x, .vStr y => x == y
  | .vDate x, .vStr y => x == y
  | .vStr x, .vDate y => x == y
  | .vDate x, .vDate y => x == y
  | a, b =>
    match toNumber a, toNumber b with
    | some x, some y => x == y
    | _, _ => false

/-- Numeric comparison used by the filter operators: JS coerces both sides
with `Number(..)` and any NaN makes the comparison false. -/
def numCmp (f : ℚ → ℚ → Bool) (a b : Value) : Bool :=
  match toNumber a, toNumber b with
  | some x, some y => f x y
  | _, _ => false

/-- Substring test over character lists (JS `String.includes`). -/
def charsInclude (t : List Char) : List Char → Bool
  | [] => t.isPrefixOf ([] : List Char)
  | c :: cs => t.isPrefixOf (c :: cs) || charsInclude t cs

/-- JS `s.includes(t)`. -/
def strIncludes (s t : String) : Bool := charsInclude t.data s.data

/-- Insertion step of the stable sort: a new element goes after every
element already placed that compares at or below it. -/
def orderedInsert (le : α → α → Bool) (x : α) : List α → List α
  | [] => [x]
  | y :: ys => if le y x then y :: orderedInsert le x ys else x :: y :: ys

/-- Stable sort modelling JS `Array.prototype.sort` with a consistent
comparator (ECMAScript guarantees stability): elements are inserted in
declaration order, each after all earlier elements comparing at or below
it, so equal keys keep their relative order. -/
def stableSortBy (le : α → α → Bool) (l : List α) : List α :=
  l.foldl (fun acc x => orderedInsert le x acc) []

/-- Lexicographic at-most comparison on character lists. -/
def charListLe : List Char → List Char → Bool
  | [], _ => true
  | _ :: _, [] => false
  | a :: as, b :: bs => if a < b then true else if b < a then false else charListLe as bs

/-- Lexicographic string comparison (the model of the comparator
`a.localeCompare(b) <= 0` used to sort input slots). -/
def strLe (a b : String) : Bool := charListLe a.data b.data

/-- Filter condition from the shared types: field, operator tag, value. -/
structure FilterCondition where
  field : String
  op : String
  value : Value
  deriving DecidableEq, Repr

/-- Transform operation from the shared types (bag of optional fields,
as in the source union). -/
structure TransformOperation where
  type : String
  sourceField : Option String := none
  targetField : Option String := none
  expression : Option String := none
  dataType : Option String := none
  dropFields : Option (List String) := none
  deriving DecidableEq, Repr

/-- Aggregation request: source field, function tag, output alias. -/
structure AggregationOperation where
  field : String
  fn : String
  aliasName : String
  deriving DecidableEq, Repr

namespace DataTransform

/-- One condition check from `DataTransform.filter` (the body of the
`switch (condition.operator)`). -/
def condHolds (row : Row) (c : FilterCondition) : Bool :=
  let value := row.get c.field
  let targetValue := c.value
  match c.op with
  | "eq" => looseEq value targetValue
  | "ne" => !looseEq value targetValue
  | "gt" => numCmp (fun x y => y < x) value targetValue
  | "gte" => numCmp (fun x y => y ≤ x) value targetValue
  | "lt" => numCmp (fun x y => x < y) value targetValue
  | "lte" => numCmp (fun x y => x ≤ y) value targetValue
  | "contains" => strIncludes (toStr value) (toStr targetValue)
  | "startsWith" => (toStr value).startsWith (toStr targetValue)
  | "endsWith" => (toStr value).endsWith (toStr targetValue)
  | _ => false

/-- `DataTransform.filter`: keep the rows satisfying every condition. -/
def filter (data : List Row) (conditions : List FilterCondition) : List Row :=
  if conditions.isEmpty then data
  else data.filter (fun row => conditions.all (fun c => condHolds row c))

/-- Sum in JS semantics: `values.reduce((acc, val) => acc + Number(val), 0)`;
`none` is NaN and absorbs. -/
def sumNums (values : List Value) : Option ℚ :=
  values.foldl
    (fun acc v =>
      match acc, toNumber v with
      | some a, some b => some (a + b)
      | _, _ => none)
    (some 0)

/-- Minimum of a nonempty rational list. -/
def listMinQ : List ℚ → Option ℚ
  | [] => none
  | q :: qs => some (qs.foldl min q)

/-- Maximum of a nonempty rational list. -/
def listMaxQ : List ℚ → Option ℚ
  | [] => none
  | q :: qs => some (qs.foldl max q)

/-- `Math.min(...values.map(Number))`: NaN if any coercion fails. -/
def minNums (values : List Value) : Option ℚ :=
  if values.any (fun v => toNumber v = none) then none
  else listMinQ (values.filterMap toNumber)

/-- `Math.max(...values.map(Number))`: NaN if any coercion fails. -/
def maxNums (values : List Value) : Option ℚ :=
  if values.any (fun v => toNumber v = none) then none
  else listMaxQ (values.filterMap toNumber)

/-- The non-null values a single aggregation looks at:
`data.map(row => row[agg.field]).filter(v => v !== null && v !== undefined)`. -/
def aggValues (data : List Row) (field : String) : List Value :=
  (data.map (fun row => row.get field)).filter
    (fun v => v != Value.vNull && v != Value.vUndef)

/-- `DataTransform.performAggregation`. -/
def performAggregation (data : List Row) (agg : AggregationOperation) : Value :=
  let values := aggValues data agg.field
  match agg.fn with
  | "sum" =>
    match sumNums values with
    | some q => .vNum q
    | none => .vNaN
  | "avg" =>
    if values.length > 0 then
      match sumNums values with
      | some q => .vNum (q / values.length)
      | none => .vNaN
    else .vNum 0
  | "min" =>
    if values.length > 0 then
      match minNums values with
      | some q => .vNum q
      | none => .vNaN
    else .vNull
  | "max" =>
    if values.length > 0 then
      match maxNums values with
      | some q => .vNum q
      | none => .vNaN
    else .vNull
  | "count" => .vNum values.length
  | "distinct" => .vNum values.dedup.length
  | _ => .vNull

/-- `DataTransform.aggregate`: group rows by the joined group-by key (JS Map
insertion order modelled by an association list built first-seen-first),
then aggregate each group; with no group-by, one row over all data. -/
def aggregate (data : List Row) (groupBy : List String)
    (aggregations : List AggregationOperation) : List Row :=
  if groupBy.isEmpty then
    [aggregations.foldl
      (fun result agg => Row.set result agg.aliasName (performAggregation data agg))
      ([] : Row)]
  else
    let groups : List (String × List Row) :=
      data.foldl
        (fun gs row =>
          let key := String.intercalate "|" (groupBy.map (fun f => toStr (row.get f)))
          if gs.any (fun g => g.1 == key) then
            gs.map (fun g => if g.1 == key then (g.1, g.2 ++ [row]) else g)
          else gs ++ [(key, [row])])
        []
    groups.map (fun g =>
      let groupData := g.2
      let withKeys :=
        groupBy.foldl
          (fun r f => Row.set r f (Row.get (groupData.head?.getD []) f)) ([] : Row)
      aggregations.foldl
        (fun r agg => Row.set r agg.aliasName (performAggregation groupData agg))
        withKeys)

end DataTransform

/-! Pipeline data model (shared types). -/

/-- Directed edge of the pipeline graph, with the optional input-slot tag. -/
structure PipelineEdge where
  source : String
  target : String
  targetHandle : Option String := none
  deriving DecidableEq, Repr

/-- Polymorphic node configuration (the loosely-typed bag of optional
fields of the source union).  `joinCondition` only matters via truthiness. -/
structure NodeConfig where
  databaseId : Option String := none
  conditions : Option (List FilterCondition) := none
  transformOps : Option (List TransformOperation) := none
  groupBy : Option (List String) := none
  aggregations : Option (List AggregationOperation) := none
  joinType : Option String := none
  joinCondition : Option String := none
  customCode : Option String := none
  deriving DecidableEq, Repr

/-- Pipeline node: id, type tag, cosmetic label and position, config. -/
structure PipelineNode where
  id : String
  type : String
  label : String := ""
  position : Int × Int := (0, 0)
  config : NodeConfig := {}
  deriving DecidableEq, Repr

/-- A pipeline: id plus the node and edge lists. -/
structure Pipeline where
  id : String
  nodes : List PipelineNode
  edges : List PipelineEdge
  deriving DecidableEq, Repr

/-- Result of one leaf node of an execution. -/
structure LeafNodeResult where
  nodeId : String
  nodeLabel : String
  nodeType : String
  data : List Row
  deriving DecidableEq, Repr

/-- Per-node results `Record<string, any[]>`, as an insertion-ordered map. -/
abbrev NodeResults := List (String × List Row)

/-- Record lookup `nodeResults[nodeId]`. -/
def nrFind (nr : NodeResults) (k : String) : Option (List Row) :=
  (nr.find? (fun p => p.1 == k)).map (fun p => p.2)

/-- Record assignment `nodeResults[nodeId] = rows`. -/
def nrSet (nr : NodeResults) (k : String) (v : List Row) : NodeResults :=
  if nr.any (fun p => p.1 == k) then
    nr.map (fun p => if p.1 == k then (k, v) else p)
  else nr ++ [(k, v)]

/-- Key list of a `NodeResults` record. -/
def nrKeys (nr : NodeResults) : List String := nr.map (fun p => p.1)

/-! Cache store (`CacheManager`). -/

/-- Cache configuration with its source defaults. -/
structure CacheConfig where
  maxExecutionResultRows : Nat := 1000
  maxNodeResultRows : Nat := 10000
  maxDashboardElementRows : Nat := 500
  pipelineExecutionTTL : Int := 5 * 60 * 1000
  nodeMetadataTTL : Int := 30 * 60 * 1000
  dashboardCacheTTL : Int := 10 * 60 * 1000
  maxCacheEntries : Nat := 100
  deriving DecidableEq, Repr

/-- Structural hash of a pipeline.  The source computes
`md5(JSON.stringify({nodes: nodes.map({id, type, config}), edges: edges.map({source, target})}))`;
we model the hash as the normalized structure itself, treating the
serialization plus md5 as injective (collisions are out of model). -/
structure PipelineHash where
  nodes : List (String × String × NodeConfig)
  edges : List (String × String)
  deriving DecidableEq, Repr

/-- `CacheManager.calculatePipelineHash`. -/
def calculatePipelineHash (pipeline : Pipeline) : PipelineHash where
  nodes := pipeline.nodes.map (fun n => (n.id, n.type, n.config))
  edges := pipeline.edges.map (fun e => (e.source, e.target))

/-- Cached payload of one pipeline execution. -/
structure PipelineExecutionCache where
  pipelineId : String
  pipelineHash : PipelineHash
  nodeResults : NodeResults
  leafResults : List LeafNodeResult
  executionTime : Int
  cachedAt : Int
  deriving DecidableEq, Repr

/-- Generic cache entry wrapper. -/
structure CacheEntry (T : Type) where
  data : T
  timestamp : Int
  ttl : Int
  deriving DecidableEq, Repr

/-- The pipeline execution cache map (JS `Map`: insertion-ordered). -/
abbrev PipeCache := List (String × CacheEntry PipelineExecutionCache)

/-- Map lookup. -/
def pcGet (cache : PipeCache) (k : String) : Option (CacheEntry PipelineExecutionCache) :=
  (cache.find? (fun p => p.1 == k)).map (fun p => p.2)

/-- Map assignment (JS `Map.set` keeps the original insertion position of
an existing key). -/
def pcSet (cache : PipeCache) (k : String) (v : CacheEntry PipelineExecutionCache) : PipeCache :=
  if cache.any (fun p => p.1 == k) then
    cache.map (fun p => if p.1 == k then (k, v) else p)
  else cache ++ [(k, v)]

/-- Map deletion. -/
def pcDelete (cache : PipeCache) (k : String) : PipeCache :=
  cache.filter (fun p => p.1 != k)

/-- `CacheManager.enforceMaxEntries`: once over capacity, sort the entries
by write timestamp and delete the oldest ones. -/
def enforceMaxEntries (cfg : CacheConfig) (cache : PipeCache) : PipeCache :=
  if cache.length ≤ cfg.maxCacheEntries then cache
  else
    let sorted := stableSortBy (fun a b => a.2.timestamp ≤ b.2.timestamp) cache
    let toDelete := sorted.take (cache.length - cfg.maxCacheEntries)
    cache.filter (fun kv => !(toDelete.any (fun d => d.1 == kv.1)))

/-- `CacheManager.cachePipelineExecution`: row-bound the node results and
leaf results, then store under the pipeline id with the execution TTL.
`now` models `Date.now()` at the call. -/
def cachePipelineExecution (cfg : CacheConfig) (cache : PipeCache) (now : Int)
    (pipelineId : String) (pipelineHash : PipelineHash)
    (nodeResults : NodeResults) (leafResults : List LeafNodeResult)
    (executionTime : Int) : PipeCache :=
  let limitedNodeResults : NodeResults :=
    nodeResults.map (fun p => (p.1, p.2.take cfg.maxNodeResultRows))
  let limitedLeafResults :=
    leafResults.map (fun leaf => { leaf with data := leaf.data.take cfg.maxExecutionResultRows })
  let cacheData : PipelineExecutionCache :=
    { pipelineId := pipelineId
      pipelineHash := pipelineHash
      nodeResults := limitedNodeResults
      leafResults := limitedLeafResults
      executionTime := executionTime
      cachedAt := now }
  enforceMaxEntries cfg
    (pcSet cache pipelineId { data := cacheData, timestamp := now, ttl := cfg.pipelineExecutionTTL })

/-- `CacheManager.getPipelineExecution`: absent, TTL-expired (lazily
deleted) and hash-mismatching (deleted) entries all read as `none`;
otherwise the payload is returned and the map unchanged.  `now` models
`Date.now()`. -/
def getPipelineExecution (cache : PipeCache) (now : Int) (pipelineId : String)
    (pipelineHash : PipelineHash) : Option PipelineExecutionCache × PipeCache :=
  match pcGet cache pipelineId with
  | none => (none, cache)
  | some entry =>
    if now - entry.timestamp > entry.ttl then (none, pcDelete cache pipelineId)
    else if entry.data.pipelineHash ≠ pipelineHash then (none, pcDelete cache pipelineId)
    else (some entry.data, cache)

/-! Pipeline engine (`PipelineEngine`). -/

/-- Input of a node: the `any[] | any[][]` union of `getNodeInputData`
(a single row array, or one row array per input slot of a custom node). -/
inductive NodeInput where
  | single (rows : List Row)
  | multi (inputs : List (List Row))
  deriving DecidableEq, Repr

/-- View of a `NodeInput` as a plain row array.  The engine only ever
produces `multi` for custom nodes, so non-custom handlers always see
`single`; the `multi` branch here is the unreachable fallback. -/
def NodeInput.asRows : NodeInput → List Row
  | .single rows => rows
  | .multi inputs => inputs.head?.getD []

/-- Oracles for the JavaScript features the engine delegates to:
the database fetch, the dynamically compiled custom-node function
(already including its must-return-an-array validation), the calculate
expression evaluator (its internal failures already mapped to null), and
the regex first-match used by extract operations. -/
structure EngineCtx where
  fetch : String → Except String (List Row)
  runCustom : String → NodeInput → Except String (List Row)
  evalExpr : String → Row → Value
  regexFirstMatch : String → String → Option String

/-- Section of `DataTransform.transform` applying one operation to the
accumulated shallow copy, reading source fields from the original row. -/
def applyTransformOp (ctx : EngineCtx) (row : Row) (newRow : Row)
    (op : TransformOperation) : Row :=
  match op.type with
  | "rename" =>
    if strOptTruthy op.sourceField && strOptTruthy op.targetField
        && (op.sourceField ≠ op.targetField) then
      let s := op.sourceField.getD ""
      let t := op.targetField.getD ""
      Row.del (Row.set newRow t (Row.get row s)) s
    else newRow
  | "calculate" =>
    if strOptTruthy op.expression && strOptTruthy op.targetField then
      Row.set newRow (op.targetField.getD "") (ctx.evalExpr (op.expression.getD "") row)
    else newRow
  | "cast" =>
    if strOptTruthy op.sourceField && strOptTruthy op.dataType
        && strOptTruthy op.targetField then
      Row.set newRow (op.targetField.getD "")
        (castValue (Row.get row (op.sourceField.getD "")) (op.dataType.getD ""))
    else newRow
  | "extract" =>
    if strOptTruthy op.sourceField && strOptTruthy op.expression
        && strOptTruthy op.targetField then
      Row.set newRow (op.targetField.getD "")
        (extractValue ctx (Row.get row (op.sourceField.getD "")) (op.expression.getD ""))
    else newRow
  | "drop" =>
    match op.dropFields with
    | some fields => if fields.length > 0 then fields.foldl Row.del newRow else newRow
    | none => newRow
  | _ => newRow
where
  /-- `DataTransform.castValue`. -/
  castValue (v : Value) (dataType : String) : Value :=
    match dataType with
    | "string" => .vStr (toStr v)
    | "number" =>
      match toNumber v with
      | some q => .vNum q
      | none => .vNaN
    | "boolean" => .vBool v.truthy
    | "date" => .vDate (toStr v)
    | _ => v
  /-- `DataTransform.extractValue` (regex behavior via the oracle). -/
  extractValue (ctx : EngineCtx) (v : Value) (pat : String) : Value :=
    if !v.truthy then .vNull
    else
      match ctx.regexFirstMatch pat (toStr v) with
      | some m => .vStr m
      | none => .vNull

/-- `DataTransform.transform`. -/
def transformRows (ctx : EngineCtx) (data : List Row)
    (ops : List TransformOperation) : List Row :=
  if ops.isEmpty then data
  else data.map (fun row => ops.foldl (applyTransformOp ctx row) row)

/-- DFS of `findReachableNodes` (the inner `visit`), with explicit fuel
for termination (structural on the fuel, so that concrete runs reduce).
The source tracks `visited` and `reachable` sets that always receive the
same elements, so a single list suffices; the `forEach` over the outgoing
edges is the fold. -/
def visitReach (edges : List PipelineEdge) : Nat → String → List String → List String
  | 0, _, visited => visited
  | fuel + 1, nodeId, visited =>
    if nodeId ∈ visited then visited
    else
      ((edges.filter (fun e => e.source == nodeId)).map (fun e => e.target)).foldl
        (fun vs t => visitReach edges fuel t vs) (visited ++ [nodeId])

/-- `PipelineEngine.findReachableNodes`: the set of nodes reachable from
`startNodeId` along edges, as a list in first-visit order.  The fuel
`edges.length + 2` dominates the recursion depth (each recursing call
marks a fresh node, and every visitable node is the start node or some
edge target). -/
def findReachableNodes (pipeline : Pipeline) (startNodeId : String) : List String :=
  visitReach pipeline.edges (pipeline.edges.length + 2) startNodeId []

/-- Union of per-source reachable sets built in `execute`
(`reachableNodes.add` over a JS `Set`: append only new elements). -/
def reachableList (pipeline : Pipeline) : List String :=
  (pipeline.nodes.filter (fun n => n.type == "dataSource")).foldl
    (fun acc d => acc ++ ((findReachableNodes pipeline d.id).filter (fun x => x ∉ acc)))
    []

/-- `PipelineEngine.findLeafNodes`: reachable nodes with no outgoing edge. -/
def findLeafNodes (pipeline : Pipeline) (reachableNodes : List String) : List String :=
  reachableNodes.filter (fun nodeId => !(pipeline.edges.any (fun e => e.source == nodeId)))

/-- State of the topological sort: the visited set and the result order. -/
structure TSState where
  visited : List String
  result : List String
  deriving DecidableEq, Repr

/-- DFS of `topologicalSort` (the inner `visit`): skip visited or
unreachable nodes, recurse into all incoming-edge sources (the fold is
the `forEach`), then push the node.  Structural on the fuel. -/
def tsVisit (edges : List PipelineEdge) (reachable : List String) :
    Nat → String → TSState → TSState
  | 0, _, s => s
  | fuel + 1, nodeId, s =>
    if nodeId ∈ s.visited then s
    else if nodeId ∉ reachable then s
    else
      let s' : TSState := ⟨nodeId :: s.visited, s.result⟩
      let s'' := ((edges.filter (fun e => e.target == nodeId)).map (fun e => e.source)).foldl
        (fun st u => tsVisit edges reachable fuel u st) s'
      ⟨s''.visited, s''.result ++ [nodeId]⟩

/-- `PipelineEngine.topologicalSort`: visit the reachable nodes without
incoming edges first, then every remaining reachable node.  Only nodes of
the reachable set are ever marked, so fuel `reachable.length + 1` is
always sufficient for each top-level visit. -/
def topologicalSort (pipeline : Pipeline) (reachableNodes : List String) : List String :=
  let fuel := reachableNodes.length + 1
  let noIncoming :=
    (pipeline.nodes.filter
      (fun node => node.id ∈ reachableNodes
        && !(pipeline.edges.any (fun e => e.target == node.id)))).map (fun n => n.id)
  let s1 := noIncoming.foldl
    (fun st nid => tsVisit pipeline.edges reachableNodes fuel nid st) ⟨[], []⟩
  let s2 := reachableNodes.foldl
    (fun st nid => tsVisit pipeline.edges reachableNodes fuel nid st) s1
  s2.result

/-- `PipelineEngine.getNodeInputData`: no incoming edge gives an empty
input; one incoming edge gives the rows of that source; several incoming edges
on a custom node give one row array per edge, sorted by target handle
(missing handle defaults to input-0); several edges on any other node use
only the first edge. -/
def getNodeInputData (node : PipelineNode) (pipeline : Pipeline)
    (nodeResults : NodeResults) : NodeInput :=
  let incomingEdges := pipeline.edges.filter (fun e => e.target == node.id)
  match incomingEdges with
  | [] => .single []
  | [e] => .single ((nrFind nodeResults e.source).getD [])
  | e₀ :: _ :: _ =>
    if node.type == "custom" then
      let sortedEdges := stableSortBy
        (fun a b => strLe (edgeHandle a) (edgeHandle b)) incomingEdges
      .multi (sortedEdges.map (fun e => (nrFind nodeResults e.source).getD []))
    else .single ((nrFind nodeResults e₀.source).getD [])
where
  /-- JS fallback of `edge.targetHandle` to the default handle input-0. -/
  edgeHandle (e : PipelineEdge) : String :=
    match e.targetHandle with
    | some h => if h = "" then "input-0" else h
    | none => "input-0"

/-- `PipelineEngine.executeDataSource`: unset reference is a fatal
configuration error naming the node; a fetch failure is wrapped with the
node label. -/
def executeDataSource (ctx : EngineCtx) (node : PipelineNode) : Except String (List Row) :=
  if !(strOptTruthy node.config.databaseId) then
    .error ("データソース「" ++ node.label ++
      "」に参照データが設定されていません。ノードをクリックして設定パネルからデータベースを選択してください。")
  else
    match ctx.fetch (node.config.databaseId.getD "") with
    | .ok result => .ok result
    | .error msg =>
      .error ("データソース「" ++ node.label ++ "」のデータ取得に失敗しました: " ++ msg)

/-- `PipelineEngine.executeCustom`: blank code passes through (first input
when multiple); otherwise the compiled user function runs via the oracle
and failures are rethrown with the custom-code wrapper message. -/
def executeCustom (ctx : EngineCtx) (node : PipelineNode) (inputData : NodeInput) :
    Except String (List Row) :=
  let code := node.config.customCode.getD ""
  if !(strOptTruthy node.config.customCode) || code.trim = "" then
    match inputData with
    | .multi inputs => .ok (inputs.head?.getD [])
    | .single rows => .ok rows
  else
    match ctx.runCustom code inputData with
    | .ok result => .ok result
    | .error msg => .error ("Custom code execution failed: " ++ msg)

/-- `PipelineEngine.executeNode`: per-type dispatch.  Filter, transform
and aggregate nodes fall back to the identity when their config list is
absent or empty; join is the pass-through stub of the source;
visualization and dashboard pass through. -/
def executeNode (ctx : EngineCtx) (node : PipelineNode) (inputData : NodeInput) :
    Except String (List Row) :=
  match node.type with
  | "dataSource" => executeDataSource ctx node
  | "filter" =>
    match node.config.conditions with
    | none => .ok inputData.asRows
    | some conditions =>
      if conditions.length = 0 then .ok inputData.asRows
      else .ok (DataTransform.filter inputData.asRows conditions)
  | "transform" =>
    match node.config.transformOps with
    | none => .ok inputData.asRows
    | some ops =>
      if ops.length = 0 then .ok inputData.asRows
      else .ok (transformRows ctx inputData.asRows ops)
  | "aggregate" =>
    match node.config.aggregations with
    | none => .ok inputData.asRows
    | some aggs =>
      if aggs.length = 0 then .ok inputData.asRows
      else .ok (DataTransform.aggregate inputData.asRows (node.config.groupBy.getD []) aggs)
  | "join" =>
    if !(strOptTruthy node.config.joinCondition) then .ok inputData.asRows
    else .ok inputData.asRows
  | "visualization" => .ok inputData.asRows
  | "dashboard" => .ok inputData.asRows
  | "custom" => executeCustom ctx node inputData
  | _ => .ok inputData.asRows

/-- Node-execution loop of `execute`: walk the execution order, skip ids
with no matching node, resolve each input from the accumulated results,
run the node and store its output. -/
def runNodes (ctx : EngineCtx) (pipeline : Pipeline) :
    List String → NodeResults → Except String NodeResults
  | [], acc => .ok acc
  | nodeId :: rest, acc =>
    match pipeline.nodes.find? (fun n => n.id == nodeId) with
    | none => runNodes ctx pipeline rest acc
    | some node =>
      match executeNode ctx node (getNodeInputData node pipeline acc) with
      | .error msg => .error msg
      | .ok outputData => runNodes ctx pipeline rest (nrSet acc nodeId outputData)

/-- Body of the `try` block of `execute` (everything that can throw):
require a data source, compute the reachable set and execution order, run
the nodes, and collect the leaf results.  Reading `.label` off a leaf id
with no matching node is the runtime TypeError of the non-null assertion
in the source. -/
def runBody (ctx : EngineCtx) (pipeline : Pipeline) :
    Except String (NodeResults × List LeafNodeResult) :=
  if (pipeline.nodes.filter (fun n => n.type == "dataSource")).length = 0 then
    .error "No data source node found in pipeline"
  else
    match runNodes ctx pipeline (topologicalSort pipeline (reachableList pipeline)) [] with
    | .error msg => .error msg
    | .ok nodeResults =>
      match (findLeafNodes pipeline (reachableList pipeline)).mapM (fun nodeId =>
          match pipeline.nodes.find? (fun n => n.id == nodeId) with
          | none => (.error "Cannot read properties of undefined (reading 'label')" :
              Except String LeafNodeResult)
          | some node => .ok
            { nodeId := nodeId
              nodeLabel := node.label
              nodeType := node.type
              data := (nrFind nodeResults nodeId).getD [] }) with
      | .error msg => .error msg
      | .ok leafResults => .ok (nodeResults, leafResults)

/-- Result record of `execute`.  Fields that the source leaves absent on
some paths (`data`, `leafResults`, `nodeResults`, `error`) are optional;
`cached` is the flag attached on the cache-hit path. -/
structure ExecutionResult where
  pipelineId : String
  status : String
  data : Option (List Row)
  leafResults : Option (List LeafNodeResult)
  executionTime : Int
  nodeResults : Option NodeResults
  error : Option String
  cached : Bool
  deriving DecidableEq, Repr

/-- `PipelineEngine.execute`.  `t0` models `Date.now()` at entry (start
time and cache-query time) and `t1` models `Date.now()` at completion
(execution time measurement and cache-write time).  Returns the result
together with the updated cache map. -/
def execute (ctx : EngineCtx) (cfg : CacheConfig) (cache : PipeCache)
    (t0 t1 : Int) (pipeline : Pipeline) (useCache : Bool) :
    ExecutionResult × PipeCache :=
  let fresh : PipeCache → ExecutionResult × PipeCache := fun cache' =>
    match runBody ctx pipeline with
    | .ok (nodeResults, leafResults) =>
      let executionTime := t1 - t0
      let firstLeafData :=
        if leafResults.length > 0 then (leafResults.head?.map (fun l => l.data)).getD []
        else []
      let cache'' :=
        if useCache then
          cachePipelineExecution cfg cache' t1 pipeline.id
            (calculatePipelineHash pipeline) nodeResults leafResults executionTime
        else cache'
      ({ pipelineId := pipeline.id
         status := "success"
         data := some firstLeafData
         leafResults := some leafResults
         executionTime := executionTime
         nodeResults := some nodeResults
         error := none
         cached := false }, cache'')
    | .error msg =>
      ({ pipelineId := pipeline.id
         status := "error"
         data := none
         leafResults := none
         executionTime := t1 - t0
         nodeResults := none
         error := some msg
         cached := false }, cache')
  if useCache then
    let pipelineHash := calculatePipelineHash pipeline
    match getPipelineExecution cache t0 pipeline.id pipelineHash with
    | (some cachedResult, cache₁) =>
      ({ pipelineId := pipeline.id
         status := "success"
         data := some ((cachedResult.leafResults.head?.map (fun l => l.data)).getD [])
         leafResults := some cachedResult.leafResults
         executionTime := cachedResult.executionTime
         nodeResults := some cachedResult.nodeResults
         error := none
         cached := true }, cache₁)
    | (none, cache₁) => fresh cache₁
  else fresh cache

/-! Concrete instances used by the specification scenario and witnesses. -/

/-- Row with a single numeric field `a`. -/
def rowA (n : ℚ) : Row := [("a", Value.vNum n)]

/-- The spec scenario pipeline: Source, then Filter a gt 1, then Aggregate
sum of a as total. -/
def scenarioPipeline : Pipeline where
  id := "p1"
  nodes :=
    [ { id := "src", type := "dataSource", label := "S",
        config := { databaseId := some "db" } }
    , { id := "flt", type := "filter", label := "F",
        config := { conditions := some [⟨"a", "gt", Value.vNum 1⟩] } }
    , { id := "agg", type := "aggregate", label := "G",
        config := { aggregations := some [⟨"a", "sum", "total"⟩] } } ]
  edges := [⟨"src", "flt", none⟩, ⟨"flt", "agg", none⟩]

/-- Engine context for the scenario: the database holds the three rows
a=1, a=2, a=3; the remaining oracles are inert. -/
def scenarioCtx : EngineCtx where
  fetch := fun dbid => if dbid = "db" then .ok [rowA 1, rowA 2, rowA 3] else .error "not found"
  runCustom := fun _ _ => .error "unused"
  evalExpr := fun _ _ => Value.vNull
  regexFirstMatch := fun _ _ => none

/-- Single data-source pipeline (its source is also its only leaf). -/
def singleNodePipeline : Pipeline where
  id := "p2"
  nodes := [{ id := "src", type := "dataSource", label := "S",
              config := { databaseId := some "db" } }]
  edges := []

/-- Cache configuration with a leaf-result row cap of 1. -/
def tinyCacheConfig : CacheConfig := { maxExecutionResultRows := 1 }

/-- Leaf result of the single-node pipeline over the three sample rows. -/
def sampleLeaf : LeafNodeResult where
  nodeId := "src"
  nodeLabel := "S"
  nodeType := "dataSource"
  data := [rowA 1, rowA 2, rowA 3]

/-- Rows whose `field` is neither null nor undefined (the rows an
aggregation actually looks at). -/
def hasFieldValue (field : String) (r : Row) : Bool :=
  (Row.get r field != Value.vNull) && (Row.get r field != Value.vUndef)

/-! Specification-side graph notions used to state reachability and
ordering claims, and the counting measure for the DFS fuel arguments. -/

/-- Edge relation of an edge list: there is an edge from `a` to `b`. -/
def stepE (edges : List PipelineEdge) (a b : String) : Prop :=
  ∃ e ∈ edges, e.source = a ∧ e.target = b

/-- A node id reachable (by a directed path of length zero or more) from
the id of some node of type dataSource. -/
def reachSpec (pipeline : Pipeline) (x : String) : Prop :=
  ∃ d ∈ pipeline.nodes, d.type = "dataSource" ∧
    Relation.ReflTransGen (stepE pipeline.edges) d.id x

/-- Edge relation restricted to a node set `R`. -/
def stepIn (edges : List PipelineEdge) (R : List String) (a b : String) : Prop :=
  stepE edges a b ∧ a ∈ R ∧ b ∈ R

/-- Acyclicity of the edge relation restricted to `R`. -/
def AcyclicOn (edges : List PipelineEdge) (R : List String) : Prop :=
  ∀ x, ¬ Relation.TransGen (stepIn edges R) x x

/-- A result list is topologically consistent: wherever `v` occurs, every
`R`-member with an edge into `v` already occurs strictly earlier. -/
def SortedRes (edges : List PipelineEdge) (R res : List String) : Prop :=
  ∀ l₁ v l₂, res = l₁ ++ v :: l₂ → ∀ u, stepE edges u v → u ∈ R → u ∈ l₁

/-- Number of elements of the universe `U` not yet visited. -/
def unvis (U visited : List String) : Nat :=
  (U.filter (fun u => decide (u ∉ visited))).length

/-- Closure of `R` under outgoing edges, except for nodes protected by
`S` (the visited set a DFS call started from). -/
def ClosedOver (edges : List PipelineEdge) (S R : List String) : Prop :=
  ∀ x ∈ R, x ∉ S → ∀ e ∈ edges, e.source = x → e.target ∈ R

/-! Theorems.  Claim labels C1 to C10 refer to the frozen claim list. -/

section AggregationLemmas

open DataTransform

theorem aggValues_eq_map_filter (data : List Row) (field : String) :
    aggValues data field
      = (data.filter (hasFieldValue field)).map (fun r => Row.get r field) := by
  induction data with
  | nil => rfl
  | cons r rs ih =>
    have hrec := ih
    simp only [aggValues, List.map_cons, List.filter_cons] at *
    cases hcase : ((Row.get r field != Value.vNull) && (Row.get r field != Value.vUndef)) <;>
      simp [hasFieldValue, hcase, hrec]

theorem aggValues_nil_of_nullish (data : List Row) (field : String)
    (h : ∀ row ∈ data, Row.get row field = Value.vNull ∨ Row.get row field = Value.vUndef) :
    aggValues data field = [] := by
  rw [aggValues_eq_map_filter]
  have : data.filter (hasFieldValue field) = [] := by
    rw [List.filter_eq_nil_iff]
    intro r hr
    rcases h r hr with h' | h' <;> simp [hasFieldValue, h']
  simp [this]

/-- C9: aggregating a row set whose relevant values are all absent (in
particular the empty row set) yields 0 for avg, sum, count and distinct,
and null for min and max; never NaN and never an error. -/
theorem c9_empty_aggregation (data : List Row) (field aliasNm : String)
    (h : ∀ row ∈ data, Row.get row field = Value.vNull ∨ Row.get row field = Value.vUndef) :
    performAggregation data ⟨field, "avg", aliasNm⟩ = Value.vNum 0 ∧
    performAggregation data ⟨field, "min", aliasNm⟩ = Value.vNull ∧
    performAggregation data ⟨field, "max", aliasNm⟩ = Value.vNull ∧
    performAggregation data ⟨field, "sum", aliasNm⟩ = Value.vNum 0 ∧
    performAggregation data ⟨field, "count", aliasNm⟩ = Value.vNum 0 ∧
    performAggregation data ⟨field, "distinct", aliasNm⟩ = Value.vNum 0 := by
  have hv := aggValues_nil_of_nullish data field h
  refine ⟨?_, ?_, ?_, ?_, ?_, ?_⟩ <;> simp [performAggregation, hv, sumNums]

/-- Witness for C9 at the empty row set. -/
theorem c9_empty_aggregation_witness :
    DataTransform.performAggregation [] ⟨"a", "avg", "t"⟩ = Value.vNum 0 :=
  (c9_empty_aggregation [] "a" "t" (by simp)).1

theorem aggValues_filter_self (data : List Row) (field : String) :
    aggValues (data.filter (hasFieldValue field)) field = aggValues data field := by
  rw [aggValues_eq_map_filter, aggValues_eq_map_filter, List.filter_filter]
  simp

/-- C10: every aggregation function first discards the rows whose target
field is null or undefined — the aggregate over the full row set equals
the aggregate over only the rows carrying the field, and count returns
the number of such rows rather than the total row count. -/
theorem c10_nullish_rows_never_contribute (data : List Row) (agg : AggregationOperation) :
    performAggregation data agg
        = performAggregation (data.filter (hasFieldValue agg.field)) agg ∧
    (agg.fn = "count" →
      performAggregation data agg
        = Value.vNum ((data.filter (hasFieldValue agg.field)).length : ℚ)) := by
  constructor
  · simp only [performAggregation, aggValues_filter_self]
  · intro hfn
    simp only [performAggregation, hfn, aggValues_eq_map_filter, List.length_map]

/-- Witness for C10 count at a concrete mixed row set. -/
theorem c10_nullish_rows_never_contribute_witness :
    DataTransform.performAggregation
        [[("a", Value.vNum 1)], [("b", Value.vNum 2)], [("a", Value.vNull)]]
        ⟨"a", "count", "c"⟩
      = Value.vNum (([[("a", Value.vNum 1)], [("b", Value.vNum 2)],
          [("a", Value.vNull)]].filter (hasFieldValue "a")).length : ℚ) :=
  (c10_nullish_rows_never_contribute
    [[("a", Value.vNum 1)], [("b", Value.vNum 2)], [("a", Value.vNull)]]
    ⟨"a", "count", "c"⟩).2 rfl

end AggregationLemmas

/-- C1: the concrete pipeline Source with rows a=1, a=2, a=3, then Filter
keeping a gt 1, then Aggregate summing a as total, executed once without
cache, returns status success, and its single leaf result data is exactly
the one row total=5 (also exposed through the legacy data field). -/
theorem c1_scenario_filter_sum :
    (execute scenarioCtx {} [] 0 10 scenarioPipeline false).1.status = "success" ∧
    (execute scenarioCtx {} [] 0 10 scenarioPipeline false).1.leafResults =
      some [{ nodeId := "agg", nodeLabel := "G", nodeType := "aggregate",
              data := [[("total", Value.vNum 5)]] }] ∧
    (execute scenarioCtx {} [] 0 10 scenarioPipeline false).1.data =
      some [[("total", Value.vNum 5)]] := by
  refine ⟨by decide, ?_, ?_⟩ <;> with_unfolding_all decide

section KeyedRecordLemmas

variable {α : Type}

theorem find?_key_replace (c : List (String × α)) (k : String) (v : α)
    (hany : c.any (fun p => p.1 == k) = true) :
    (c.map (fun p => if p.1 == k then (k, v) else p)).find? (fun p => p.1 == k)
      = some (k, v) := by
  induction c with
  | nil => simp at hany
  | cons p ps ih =>
    by_cases hp : (p.1 == k) = true
    · rw [List.map_cons, if_pos hp, List.find?_cons_of_pos]
      simp
    · have hany' : ps.any (fun (q : String × α) => q.1 == k) = true := by
        simpa [hp] using hany
      rw [List.map_cons, if_neg hp,
        @List.find?_cons_of_neg _ (fun (q : String × α) => q.1 == k) _ _ hp]
      exact ih hany'

theorem find?_key_append (c : List (String × α)) (k : String) (v : α)
    (hany : c.any (fun p => p.1 == k) = false) :
    ((c ++ [(k, v)]).find? (fun p => p.1 == k)) = some (k, v) := by
  induction c with
  | nil =>
    rw [List.nil_append, List.find?_cons_of_pos]
    simp
  | cons p ps ih =>
    simp only [List.any_cons, Bool.or_eq_false_iff] at hany
    rw [List.cons_append, List.find?_cons_of_neg]
    · exact ih hany.2
    · simp [hany.1]

theorem find?_key_replace_ne (c : List (String × α)) (k k' : String) (v : α)
    (hne : k' ≠ k) :
    (c.map (fun p => if p.1 == k then (k, v) else p)).find? (fun p => p.1 == k')
      = c.find? (fun p => p.1 == k') := by
  induction c with
  | nil => rfl
  | cons p ps ih =>
    by_cases hp : (p.1 == k) = true
    · have hpk : p.1 = k := by simpa using hp
      have h1 : ((k, v).1 == k') = false := beq_eq_false_iff_ne.2 (Ne.symm hne)
      have h2 : (p.1 == k') = false := by
        rw [hpk]
        exact beq_eq_false_iff_ne.2 (Ne.symm hne)
      rw [List.map_cons, if_pos hp,
        @List.find?_cons_of_neg _ (fun (q : String × α) => q.1 == k') _ _ (by simp [h1]),
        @List.find?_cons_of_neg _ (fun (q : String × α) => q.1 == k') _ _ (by simp [h2])]
      exact ih
    · by_cases hp' : (p.1 == k') = true
      · rw [List.map_cons, if_neg hp,
          @List.find?_cons_of_pos _ (fun (q : String × α) => q.1 == k') _ _ hp',
          @List.find?_cons_of_pos _ (fun (q : String × α) => q.1 == k') _ _ hp']
      · rw [List.map_cons, if_neg hp,
          @List.find?_cons_of_neg _ (fun (q : String × α) => q.1 == k') _ _ hp',
          @List.find?_cons_of_neg _ (fun (q : String × α) => q.1 == k') _ _ hp']
        exact ih

end KeyedRecordLemmas

section CacheLemmas

theorem pcGet_pcSet_self (c : PipeCache) (k : String) (v : CacheEntry PipelineExecutionCache) :
    pcGet (pcSet c k v) k = some v := by
  unfold pcGet pcSet
  cases hany : c.any (fun p => p.1 == k) with
  | true =>
    rw [if_pos rfl, find?_key_replace c k v hany]
    rfl
  | false =>
    rw [if_neg (by simp), find?_key_append c k v hany]
    rfl

theorem pcSet_length_le (c : PipeCache) (k : String) (v : CacheEntry PipelineExecutionCache) :
    (pcSet c k v).length ≤ c.length + 1 := by
  unfold pcSet
  by_cases hany : c.any (fun p => p.1 == k) = true <;> simp [hany]

theorem enforceMaxEntries_of_le (cfg : CacheConfig) (cache : PipeCache)
    (h : cache.length ≤ cfg.maxCacheEntries) :
    enforceMaxEntries cfg cache = cache := by
  unfold enforceMaxEntries
  simp [h]

theorem pcGet_cachePipelineExecution_self (cfg : CacheConfig) (cache : PipeCache)
    (now : Int) (pid : String) (ph : PipelineHash) (nr : NodeResults)
    (lr : List LeafNodeResult) (et : Int)
    (hlen : cache.length < cfg.maxCacheEntries) :
    pcGet (cachePipelineExecution cfg cache now pid ph nr lr et) pid =
      some { data := { pipelineId := pid
                       pipelineHash := ph
                       nodeResults := nr.map (fun p => (p.1, p.2.take cfg.maxNodeResultRows))
                       leafResults := lr.map (fun leaf =>
                         { leaf with data := leaf.data.take cfg.maxExecutionResultRows })
                       executionTime := et
                       cachedAt := now }
             timestamp := now
             ttl := cfg.pipelineExecutionTTL } := by
  unfold cachePipelineExecution
  rw [enforceMaxEntries_of_le]
  · exact pcGet_pcSet_self ..
  · exact le_trans (pcSet_length_le ..) (by omega)

end CacheLemmas

/-- C5: getPipelineExecution returns none in exactly three cases — no
stored entry, elapsed TTL (entry deleted), or hash mismatch (entry
deleted) — and otherwise returns the stored payload with the map
untouched; an entry written at time T with validity window ttl is a hit
strictly before T plus ttl and a miss strictly after, with no error
surfaced in either case. -/
theorem c5_cache_get_three_miss_cases (cache : PipeCache) (now : Int)
    (pid : String) (ph : PipelineHash) :
    (pcGet cache pid = none → getPipelineExecution cache now pid ph = (none, cache)) ∧
    (∀ e, pcGet cache pid = some e →
      (now - e.timestamp > e.ttl →
        getPipelineExecution cache now pid ph = (none, pcDelete cache pid)) ∧
      (now - e.timestamp ≤ e.ttl → e.data.pipelineHash ≠ ph →
        getPipelineExecution cache now pid ph = (none, pcDelete cache pid)) ∧
      (now - e.timestamp ≤ e.ttl → e.data.pipelineHash = ph →
        getPipelineExecution cache now pid ph = (some e.data, cache))) ∧
    (∀ (cfg : CacheConfig) (nr : NodeResults) (lr : List LeafNodeResult) (et T t : Int),
      cache.length < cfg.maxCacheEntries →
      (t < T + cfg.pipelineExecutionTTL →
        (getPipelineExecution (cachePipelineExecution cfg cache T pid ph nr lr et)
          t pid ph).1 ≠ none) ∧
      (t > T + cfg.pipelineExecutionTTL →
        (getPipelineExecution (cachePipelineExecution cfg cache T pid ph nr lr et)
          t pid ph).1 = none)) := by
  refine ⟨?_, ?_, ?_⟩
  · intro h
    simp [getPipelineExecution, h]
  · intro e he
    refine ⟨?_, ?_, ?_⟩
    · intro hexp
      simp [getPipelineExecution, he, hexp]
    · intro hfresh hne
      have : ¬ (now - e.timestamp > e.ttl) := by omega
      simp [getPipelineExecution, he, this, hne]
    · intro hfresh heq
      have : ¬ (now - e.timestamp > e.ttl) := by omega
      simp [getPipelineExecution, he, this, heq]
  · intro cfg nr lr et T t hlen
    have hstored := pcGet_cachePipelineExecution_self cfg cache T pid ph nr lr et hlen
    constructor
    · intro hbefore
      have hfresh : ¬ (t - T > cfg.pipelineExecutionTTL) := by omega
      simp [getPipelineExecution, hstored, hfresh]
    · intro hafter
      have hexp : t - T > cfg.pipelineExecutionTTL := by omega
      simp [getPipelineExecution, hstored, hexp]

/-- Witness for C5: a fresh write at time 0 with the default 300000 ms TTL
is a hit at 299999 and a miss at 300001. -/
theorem c5_cache_get_three_miss_cases_witness :
    (getPipelineExecution
        (cachePipelineExecution {} [] 0 "p" (calculatePipelineHash scenarioPipeline) [] [] 7)
        299999 "p" (calculatePipelineHash scenarioPipeline)).1 ≠ none ∧
    (getPipelineExecution
        (cachePipelineExecution {} [] 0 "p" (calculatePipelineHash scenarioPipeline) [] [] 7)
        300001 "p" (calculatePipelineHash scenarioPipeline)).1 = none := by
  have h := (c5_cache_get_three_miss_cases [] 299999 "p"
    (calculatePipelineHash scenarioPipeline)).2.2 {} [] [] 7 0 299999 (by decide)
  have h' := (c5_cache_get_three_miss_cases [] 300001 "p"
    (calculatePipelineHash scenarioPipeline)).2.2 {} [] [] 7 0 300001 (by decide)
  exact ⟨h.1 (by decide), h'.2 (by decide)⟩

section ExecuteShape

theorem mapM_except_ok_forall {ε α β : Type} {f : α → Except ε β} {P : β → Prop}
    (hf : ∀ a b, f a = .ok b → P b) :
    ∀ (l : List α) (out : List β), l.mapM f = .ok out → ∀ y ∈ out, P y := by
  intro l
  induction l with
  | nil =>
    intro out h y hy
    simp only [List.mapM_nil] at h
    cases h
    simp at hy
  | cons a as ih =>
    intro out h y hy
    rw [List.mapM_cons] at h
    cases hfa : f a with
    | error e =>
      rw [hfa] at h
      simp [Bind.bind, Except.bind] at h
    | ok b =>
      rw [hfa] at h
      cases hml : as.mapM f with
      | error e =>
        rw [hml] at h
        simp [Bind.bind, Except.bind, Pure.pure] at h
      | ok bs =>
        rw [hml] at h
        simp only [Bind.bind, Except.bind, Pure.pure] at h
        cases h
        rcases List.mem_cons.1 hy with hy | hy
        · exact hy ▸ hf a b hfa
        · exact ih bs hml y hy

theorem runBody_ok_leaf_data (ctx : EngineCtx) (p : Pipeline)
    (nr : NodeResults) (lr : List LeafNodeResult)
    (h : runBody ctx p = .ok (nr, lr)) :
    ∀ leaf ∈ lr, leaf.data = (nrFind nr leaf.nodeId).getD [] := by
  unfold runBody at h
  by_cases hds : (p.nodes.filter (fun n => n.type == "dataSource")).length = 0
  · rw [if_pos hds] at h
    cases h
  · rw [if_neg hds] at h
    cases hrn : runNodes ctx p (topologicalSort p (reachableList p)) [] with
    | error msg => rw [hrn] at h; cases h
    | ok nres =>
      rw [hrn] at h
      dsimp only at h
      cases hlm : (findLeafNodes p (reachableList p)).mapM (fun nodeId =>
          match p.nodes.find? (fun n => n.id == nodeId) with
          | none => (.error "Cannot read properties of undefined (reading 'label')" :
              Except String LeafNodeResult)
          | some node => .ok
            { nodeId := nodeId
              nodeLabel := node.label
              nodeType := node.type
              data := (nrFind nres nodeId).getD [] }) with
      | error msg => rw [hlm] at h; cases h
      | ok lres =>
        rw [hlm] at h
        dsimp only at h
        cases h
        refine mapM_except_ok_forall ?_ _ _ hlm
        intro a b hab
        cases hfind : p.nodes.find? (fun n => n.id == a) with
        | none => rw [hfind] at hab; cases hab
        | some node =>
          rw [hfind] at hab
          cases hab
          rfl

theorem execute_no_cache_ok (ctx : EngineCtx) (cfg : CacheConfig) (cache : PipeCache)
    (t0 t1 : Int) (p : Pipeline) (nr : NodeResults) (lr : List LeafNodeResult)
    (h : runBody ctx p = .ok (nr, lr)) :
    (execute ctx cfg cache t0 t1 p false).1 =
      { pipelineId := p.id
        status := "success"
        data := some (if lr.length > 0 then (lr.head?.map (fun l => l.data)).getD [] else [])
        leafResults := some lr
        executionTime := t1 - t0
        nodeResults := some nr
        error := none
        cached := false } := by
  simp [execute, h]

theorem execute_no_cache_err (ctx : EngineCtx) (cfg : CacheConfig) (cache : PipeCache)
    (t0 t1 : Int) (p : Pipeline) (msg : String)
    (h : runBody ctx p = .error msg) :
    (execute ctx cfg cache t0 t1 p false).1 =
      { pipelineId := p.id
        status := "error"
        data := none
        leafResults := none
        executionTime := t1 - t0
        nodeResults := none
        error := some msg
        cached := false } := by
  simp [execute, h]

end ExecuteShape

/-- C6: caching a pipeline execution truncates every stored row array to
the configured caps — each leaf result stores exactly
min(cap, rows) rows and each per-node result likewise with the larger
node cap — while the leaf results of a fresh non-cached execution are the
untruncated per-node outputs themselves. -/
theorem c6_cache_row_bounding :
    (∀ (cfg : CacheConfig) (cache : PipeCache) (now : Int) (pid : String)
        (ph : PipelineHash) (nr : NodeResults) (lr : List LeafNodeResult) (et : Int),
      cache.length < cfg.maxCacheEntries →
      ∃ e, pcGet (cachePipelineExecution cfg cache now pid ph nr lr et) pid = some e ∧
        e.data.leafResults.map (fun leaf => leaf.data.length)
          = lr.map (fun leaf => min cfg.maxExecutionResultRows leaf.data.length) ∧
        e.data.nodeResults.map (fun q => q.2.length)
          = nr.map (fun q => min cfg.maxNodeResultRows q.2.length) ∧
        e.data.leafResults = lr.map (fun leaf =>
          { leaf with data := leaf.data.take cfg.maxExecutionResultRows })) ∧
    (∀ (ctx : EngineCtx) (cfg : CacheConfig) (cache : PipeCache) (t0 t1 : Int)
        (p : Pipeline),
      (execute ctx cfg cache t0 t1 p false).1.status = "success" →
      ∀ leaf ∈ ((execute ctx cfg cache t0 t1 p false).1.leafResults).getD [],
        leaf.data = (nrFind (((execute ctx cfg cache t0 t1 p false).1.nodeResults).getD [])
          leaf.nodeId).getD []) := by
  constructor
  · intro cfg cache now pid ph nr lr et hlen
    refine ⟨_, pcGet_cachePipelineExecution_self cfg cache now pid ph nr lr et hlen,
      ?_, ?_, rfl⟩
    · simp [List.map_map, Function.comp, List.length_take]
    · simp [List.map_map, Function.comp, List.length_take]
  · intro ctx cfg cache t0 t1 p hstatus leaf hleaf
    cases hrb : runBody ctx p with
    | error msg =>
      rw [execute_no_cache_err ctx cfg cache t0 t1 p msg hrb] at hstatus
      simp at hstatus
    | ok res =>
      rw [execute_no_cache_ok ctx cfg cache t0 t1 p res.1 res.2 hrb] at hleaf ⊢
      simp only [Option.getD_some] at hleaf ⊢
      exact runBody_ok_leaf_data ctx p res.1 res.2 (by simpa using hrb) leaf hleaf

/-- Witness for C6: with a leaf cap of 1, caching a 3-row leaf stores
exactly 1 row. -/
theorem c6_cache_row_bounding_witness :
    ∃ e, pcGet (cachePipelineExecution tinyCacheConfig [] 0 "p"
        (calculatePipelineHash singleNodePipeline)
        [("src", [rowA 1, rowA 2, rowA 3])] [sampleLeaf] 5) "p" = some e ∧
      e.data.leafResults.map (fun leaf => leaf.data.length)
        = [sampleLeaf].map
            (fun leaf => min tinyCacheConfig.maxExecutionResultRows leaf.data.length) ∧
      e.data.nodeResults.map (fun q => q.2.length)
        = [("src", [rowA 1, rowA 2, rowA 3])].map
            (fun q => min tinyCacheConfig.maxNodeResultRows q.2.length) ∧
      e.data.leafResults = [sampleLeaf].map (fun leaf =>
        { leaf with data := leaf.data.take tinyCacheConfig.maxExecutionResultRows }) :=
  c6_cache_row_bounding.1 tinyCacheConfig [] 0 "p"
    (calculatePipelineHash singleNodePipeline)
    [("src", [rowA 1, rowA 2, rowA 3])] [sampleLeaf] 5 (by decide)

section CountingLemmas

theorem length_filter_mono {α : Type} {p q : α → Bool} (h : ∀ a, p a = true → q a = true) :
    ∀ l : List α, (l.filter p).length ≤ (l.filter q).length := by
  intro l
  induction l with
  | nil => simp
  | cons a as ih =>
    by_cases hpa : p a = true
    · rw [List.filter_cons_of_pos hpa, List.filter_cons_of_pos (h a hpa)]
      simpa using ih
    · rw [List.filter_cons_of_neg (by simpa using hpa)]
      by_cases hqa : q a = true
      · rw [List.filter_cons_of_pos hqa]
        exact le_trans ih (by simp)
      · rw [List.filter_cons_of_neg (by simpa using hqa)]
        exact ih

theorem unvis_le_of_subset {U v1 v2 : List String} (h : ∀ x ∈ v1, x ∈ v2) :
    unvis U v2 ≤ unvis U v1 := by
  apply length_filter_mono
  intro a ha
  simp only [decide_eq_true_eq] at ha ⊢
  exact fun hmem => ha (h a hmem)

theorem unvis_strict {U visited : List String} {n : String} (hU : n ∈ U) (hn : n ∉ visited) :
    unvis U (visited ++ [n]) < unvis U visited := by
  induction U with
  | nil => cases hU
  | cons a as ih =>
    unfold unvis at *
    by_cases han : a = n
    · subst han
      rw [List.filter_cons_of_neg (by simp), List.filter_cons_of_pos (by simpa using hn)]
      have := length_filter_mono (l := as)
        (p := fun u => decide (u ∉ visited ++ [a])) (q := fun u => decide (u ∉ visited))
        (by
          intro u hu
          simp only [decide_eq_true_eq] at hu ⊢
          intro hmem
          exact hu (List.mem_append_left _ hmem))
      simpa using Nat.lt_succ_of_le this
    · have hU' : n ∈ as := by
        rcases List.mem_cons.1 hU with h | h
        · exact absurd h.symm han
        · exact h
      by_cases hav : a ∈ visited
      · rw [List.filter_cons_of_neg (by simp [hav]),
          List.filter_cons_of_neg (by simp [hav])]
        exact ih hU'
      · have hav' : a ∉ visited ++ [n] := by
          simp only [List.mem_append, List.mem_singleton]
          rintro (h | h)
          · exact hav h
          · exact han h
        rw [List.filter_cons_of_pos (by simpa using hav'),
          List.filter_cons_of_pos (by simpa using hav)]
        simpa using ih hU'

end CountingLemmas

section ReachLemmas

theorem mem_targets_iff {edges : List PipelineEdge} {n t : String} :
    t ∈ (edges.filter (fun e => e.source == n)).map (fun e => e.target)
      ↔ ∃ e ∈ edges, e.source = n ∧ e.target = t := by
  simp only [List.mem_map, List.mem_filter, beq_iff_eq]
  constructor
  · rintro ⟨e, ⟨he, hs⟩, ht⟩
    exact ⟨e, he, hs, ht⟩
  · rintro ⟨e, he, hs, ht⟩
    exact ⟨e, ⟨he, hs⟩, ht⟩

theorem visitReach_subset_pack (edges : List PipelineEdge) :
    ∀ fuel,
      (∀ (n : String) (visited : List String) (x : String),
        x ∈ visited → x ∈ visitReach edges fuel n visited) ∧
      (∀ (ts visited : List String) (x : String), x ∈ visited →
        x ∈ ts.foldl (fun vs t => visitReach edges fuel t vs) visited) := by
  intro fuel
  induction fuel with
  | zero =>
    refine ⟨fun n visited x hx => by simpa [visitReach] using hx, ?_⟩
    intro ts
    induction ts with
    | nil => intro visited x hx; simpa using hx
    | cons t ts ihts =>
      intro visited x hx
      simp only [List.foldl_cons]
      exact ihts _ x (by simpa [visitReach] using hx)
  | succ fuel ih =>
    have first : ∀ n visited x, x ∈ visited → x ∈ visitReach edges (fuel + 1) n visited := by
      intro n visited x hx
      simp only [visitReach]
      by_cases hmem : n ∈ visited
      · rw [if_pos hmem]; exact hx
      · rw [if_neg hmem]
        exact ih.2 _ _ x (List.mem_append_left _ hx)
    refine ⟨first, ?_⟩
    intro ts
    induction ts with
    | nil => intro visited x hx; simpa using hx
    | cons t ts ihts =>
      intro visited x hx
      simp only [List.foldl_cons]
      exact ihts _ x (first t visited x hx)

theorem visitReach_sound_pack (edges : List PipelineEdge) :
    ∀ fuel,
      (∀ (n : String) (visited : List String) (x : String),
        x ∈ visitReach edges fuel n visited →
        x ∈ visited ∨ Relation.ReflTransGen (stepE edges) n x) ∧
      (∀ (ts visited : List String) (r x : String),
        (∀ t ∈ ts, Relation.ReflTransGen (stepE edges) r t) →
        x ∈ ts.foldl (fun vs t => visitReach edges fuel t vs) visited →
        x ∈ visited ∨ Relation.ReflTransGen (stepE edges) r x) := by
  intro fuel
  induction fuel with
  | zero =>
    refine ⟨fun n visited x hx => Or.inl (by simpa [visitReach] using hx), ?_⟩
    intro ts
    induction ts with
    | nil => intro visited r x _ hx; exact Or.inl (by simpa using hx)
    | cons t ts ihts =>
      intro visited r x hs hx
      simp only [List.foldl_cons] at hx
      rcases ihts _ r x (fun u hu => hs u (List.mem_cons_of_mem _ hu)) hx with h | h
      · exact Or.inl (by simpa [visitReach] using h)
      · exact Or.inr h
  | succ fuel ih =>
    have first : ∀ n visited x, x ∈ visitReach edges (fuel + 1) n visited →
        x ∈ visited ∨ Relation.ReflTransGen (stepE edges) n x := by
      intro n visited x hx
      simp only [visitReach] at hx
      by_cases hmem : n ∈ visited
      · rw [if_pos hmem] at hx; exact Or.inl hx
      · rw [if_neg hmem] at hx
        have hstep : ∀ t ∈ (edges.filter (fun e => e.source == n)).map (fun e => e.target),
            Relation.ReflTransGen (stepE edges) n t := by
          intro t ht
          rcases mem_targets_iff.1 ht with ⟨e, he, hs, htg⟩
          exact Relation.ReflTransGen.single ⟨e, he, hs, htg⟩
        rcases ih.2 _ _ n x hstep hx with hv | hr
        · rcases List.mem_append.1 hv with hv | hv
          · exact Or.inl hv
          · right
            have : x = n := by simpa using hv
            exact this ▸ Relation.ReflTransGen.refl
        · exact Or.inr hr
    refine ⟨first, ?_⟩
    intro ts
    induction ts with
    | nil => intro visited r x _ hx; exact Or.inl (by simpa using hx)
    | cons t ts ihts =>
      intro visited r x hs hx
      simp only [List.foldl_cons] at hx
      rcases ihts _ r x (fun u hu => hs u (List.mem_cons_of_mem _ hu)) hx with h | h
      · rcases first t visited x h with h' | h'
        · exact Or.inl h'
        · exact Or.inr (Relation.ReflTransGen.trans (hs t (by simp)) h')
      · exact Or.inr h

theorem closedOver_compose {edges : List PipelineEdge} {S R1 R2 : List String}
    (h1 : ClosedOver edges S R1) (h2 : ClosedOver edges R1 R2)
    (hsub : ∀ x ∈ R1, x ∈ R2) : ClosedOver edges S R2 := by
  intro x hx hxs e he hes
  by_cases hx1 : x ∈ R1
  · exact hsub _ (h1 x hx1 hxs e he hes)
  · exact h2 x hx hx1 e he hes

theorem unvis_pos {U visited : List String} {n : String} (hU : n ∈ U) (hn : n ∉ visited) :
    0 < unvis U visited := by
  have hmem : n ∈ U.filter (fun u => decide (u ∉ visited)) :=
    List.mem_filter.2 ⟨hU, by simpa using hn⟩
  unfold unvis
  exact List.length_pos.2 (List.ne_nil_of_mem hmem)

theorem visitReach_closed_pack (edges : List PipelineEdge) (U : List String)
    (hU : ∀ e ∈ edges, e.target ∈ U) :
    ∀ fuel,
      (∀ (n : String) (visited : List String), n ∈ U → unvis U visited < fuel →
        (∀ x ∈ visited, x ∈ visitReach edges fuel n visited) ∧
        n ∈ visitReach edges fuel n visited ∧
        ClosedOver edges visited (visitReach edges fuel n visited)) ∧
      (∀ (ts visited : List String), (∀ t ∈ ts, t ∈ U) → unvis U visited < fuel →
        (∀ x ∈ visited, x ∈ ts.foldl (fun vs t => visitReach edges fuel t vs) visited) ∧
        (∀ t ∈ ts, t ∈ ts.foldl (fun vs t => visitReach edges fuel t vs) visited) ∧
        ClosedOver edges visited
          (ts.foldl (fun vs t => visitReach edges fuel t vs) visited)) := by
  intro fuel
  induction fuel with
  | zero =>
    exact ⟨fun n visited _ hf => absurd hf (by omega),
      fun ts visited _ hf => absurd hf (by omega)⟩
  | succ fuel ih =>
    have first : ∀ (n : String) (visited : List String), n ∈ U →
        unvis U visited < fuel + 1 →
        (∀ x ∈ visited, x ∈ visitReach edges (fuel + 1) n visited) ∧
        n ∈ visitReach edges (fuel + 1) n visited ∧
        ClosedOver edges visited (visitReach edges (fuel + 1) n visited) := by
      intro n visited hnU hf
      by_cases hmem : n ∈ visited
      · refine ⟨fun x hx => (visitReach_subset_pack edges _).1 n visited x hx, ?_, ?_⟩
        · exact (visitReach_subset_pack edges _).1 n visited n hmem
        · simp only [visitReach, if_pos hmem]
          intro x hx hxs
          exact absurd hx (by exact hxs)
      · have hstrict := unvis_strict hnU hmem
        have hf' : unvis U (visited ++ [n]) < fuel := by omega
        have htsU : ∀ t ∈ (edges.filter (fun e => e.source == n)).map (fun e => e.target),
            t ∈ U := by
          intro t ht
          rcases mem_targets_iff.1 ht with ⟨e, he, _, htg⟩
          exact htg ▸ hU e he
        obtain ⟨hsub, hts, hclosed⟩ := ih.2
          ((edges.filter (fun e => e.source == n)).map (fun e => e.target))
          (visited ++ [n]) htsU hf'
        have hbody : visitReach edges (fuel + 1) n visited =
            ((edges.filter (fun e => e.source == n)).map (fun e => e.target)).foldl
              (fun vs t => visitReach edges fuel t vs) (visited ++ [n]) := by
          simp only [visitReach, if_neg hmem]
        refine ⟨?_, ?_, ?_⟩
        · intro x hx
          rw [hbody]
          exact hsub x (List.mem_append_left _ hx)
        · rw [hbody]
          exact hsub n (List.mem_append_right _ (by simp))
        · rw [hbody]
          intro x hx hxs e he hes
          by_cases hxn : x = n
          · subst hxn
            exact hts e.target (mem_targets_iff.2 ⟨e, he, hes, rfl⟩)
          · have hx' : x ∉ visited ++ [n] := by
              simp only [List.mem_append, List.mem_singleton]
              rintro (h | h)
              · exact hxs h
              · exact hxn h
            exact hclosed x hx hx' e he hes
    refine ⟨first, ?_⟩
    intro ts
    induction ts with
    | nil =>
      intro visited _ hf
      refine ⟨fun x hx => by simpa using hx, by simp, ?_⟩
      intro x hx hxs
      exact absurd (by simpa using hx) hxs
    | cons t ts ihts =>
      intro visited hts hf
      have htU : t ∈ U := hts t (by simp)
      obtain ⟨hsub1, hmem1, hclosed1⟩ := first t visited htU hf
      have hsubv : ∀ x ∈ visited, x ∈ visitReach edges (fuel + 1) t visited := hsub1
      have hf2 : unvis U (visitReach edges (fuel + 1) t visited) < fuel + 1 :=
        lt_of_le_of_lt (unvis_le_of_subset hsubv) hf
      obtain ⟨hsub2, hts2, hclosed2⟩ := ihts (visitReach edges (fuel + 1) t visited)
        (fun u hu => hts u (List.mem_cons_of_mem _ hu)) hf2
      simp only [List.foldl_cons]
      refine ⟨?_, ?_, ?_⟩
      · intro x hx
        exact hsub2 x (hsub1 x hx)
      · intro u hu
        rcases List.mem_cons.1 hu with rfl | hu
        · exact hsub2 u hmem1
        · exact hts2 u hu
      · exact closedOver_compose hclosed1 hclosed2 hsub2

theorem findReachableNodes_iff (p : Pipeline) (start : String) (x : String) :
    x ∈ findReachableNodes p start
      ↔ Relation.ReflTransGen (stepE p.edges) start x := by
  constructor
  · intro hx
    rcases (visitReach_sound_pack p.edges _).1 start [] x hx with h | h
    · simp at h
    · exact h
  · intro hrtg
    have hU : ∀ e ∈ p.edges, e.target ∈
        (start :: p.edges.map (fun e => e.target)) := by
      intro e he
      exact List.mem_cons_of_mem _ (List.mem_map_of_mem _ he)
    have hfuel : unvis (start :: p.edges.map (fun e => e.target)) [] <
        p.edges.length + 2 := by
      have h1 := List.length_filter_le
        (fun u => decide (u ∉ ([] : List String)))
        (start :: p.edges.map (fun e => e.target))
      simp only [List.length_cons, List.length_map] at h1
      unfold unvis
      omega
    obtain ⟨-, hstart, hclosed⟩ :=
      (visitReach_closed_pack p.edges (start :: p.edges.map (fun e => e.target)) hU
        (p.edges.length + 2)).1 start [] (by simp) hfuel
    unfold findReachableNodes
    induction hrtg with
    | refl => exact hstart
    | tail hab hbc ih =>
      rcases hbc with ⟨e, he, hsrc, htgt⟩
      have := hclosed _ ih (by simp) e he hsrc
      exact htgt ▸ this

theorem mem_fold_union (p : Pipeline) :
    ∀ (ds : List PipelineNode) (acc : List String) (x : String),
      x ∈ ds.foldl
          (fun acc d => acc ++ ((findReachableNodes p d.id).filter (fun x => x ∉ acc))) acc
        ↔ x ∈ acc ∨ ∃ d ∈ ds, x ∈ findReachableNodes p d.id := by
  intro ds
  induction ds with
  | nil => simp
  | cons d ds ih =>
    intro acc x
    simp only [List.foldl_cons]
    rw [ih]
    constructor
    · rintro (h | h)
      · rcases List.mem_append.1 h with h | h
        · exact Or.inl h
        · exact Or.inr ⟨d, by simp, (List.mem_filter.1 h).1⟩
      · rcases h with ⟨d', hd', hx⟩
        exact Or.inr ⟨d', List.mem_cons_of_mem _ hd', hx⟩
    · rintro (h | ⟨d', hd', hx⟩)
      · exact Or.inl (List.mem_append_left _ h)
      · rcases List.mem_cons.1 hd' with rfl | hd'
        · by_cases hacc : x ∈ acc
          · exact Or.inl (List.mem_append_left _ hacc)
          · exact Or.inl (List.mem_append_right _ (List.mem_filter.2 ⟨hx, by simpa⟩))
        · exact Or.inr ⟨d', hd', hx⟩

theorem reachableList_iff (p : Pipeline) (x : String) :
    x ∈ reachableList p ↔ reachSpec p x := by
  unfold reachableList reachSpec
  rw [mem_fold_union p _ []]
  simp only [List.not_mem_nil, false_or]
  constructor
  · rintro ⟨d, hd, hx⟩
    have hmem := List.mem_filter.1 hd
    exact ⟨d, hmem.1, by simpa using hmem.2, (findReachableNodes_iff p d.id x).1 hx⟩
  · rintro ⟨d, hd, htype, hrtg⟩
    exact ⟨d, List.mem_filter.2 ⟨hd, by simp [htype]⟩,
      (findReachableNodes_iff p d.id x).2 hrtg⟩

end ReachLemmas

section TopoLemmas

theorem unvis_strict_mem {U visited visited' : List String} {n : String}
    (hU : n ∈ U) (hn : n ∉ visited) (hsub : ∀ x ∈ visited, x ∈ visited')
    (hmem : n ∈ visited') :
    unvis U visited' < unvis U visited := by
  have h1 : unvis U visited' ≤ unvis U (visited ++ [n]) := by
    apply unvis_le_of_subset
    intro x hx
    rcases List.mem_append.1 hx with hx | hx
    · exact hsub x hx
    · exact (by simpa using hx : x = n) ▸ hmem
  exact lt_of_le_of_lt h1 (unvis_strict hU hn)

theorem mem_sources_iff {edges : List PipelineEdge} {n u : String} :
    u ∈ (edges.filter (fun e => e.target == n)).map (fun e => e.source)
      ↔ ∃ e ∈ edges, e.target = n ∧ e.source = u := by
  simp only [List.mem_map, List.mem_filter, beq_iff_eq]
  constructor
  · rintro ⟨e, ⟨he, ht⟩, hs⟩
    exact ⟨e, he, ht, hs⟩
  · rintro ⟨e, he, ht, hs⟩
    exact ⟨e, ⟨he, ht⟩, hs⟩

theorem tsVisit_set_pack (edges : List PipelineEdge) (R : List String) :
    ∀ fuel,
      (∀ (n : String) (s : TSState) (A : List String),
        unvis R s.visited < fuel →
        (∀ x, x ∈ s.visited ↔ (x ∈ s.result ∨ x ∈ A)) →
        (∀ x ∈ s.visited, x ∈ (tsVisit edges R fuel n s).visited) ∧
        (∃ tail, (tsVisit edges R fuel n s).result = s.result ++ tail) ∧
        (∀ x, x ∈ (tsVisit edges R fuel n s).visited ↔
          (x ∈ (tsVisit edges R fuel n s).result ∨ x ∈ A)) ∧
        (n ∈ R → n ∈ (tsVisit edges R fuel n s).visited) ∧
        (∀ x ∈ (tsVisit edges R fuel n s).visited, x ∈ s.visited ∨ x ∈ R)) ∧
      (∀ (ids : List String) (s : TSState) (A : List String),
        unvis R s.visited < fuel →
        (∀ x, x ∈ s.visited ↔ (x ∈ s.result ∨ x ∈ A)) →
        (∀ x ∈ s.visited,
          x ∈ (ids.foldl (fun st u => tsVisit edges R fuel u st) s).visited) ∧
        (∃ tail, (ids.foldl (fun st u => tsVisit edges R fuel u st) s).result
          = s.result ++ tail) ∧
        (∀ x, x ∈ (ids.foldl (fun st u => tsVisit edges R fuel u st) s).visited ↔
          (x ∈ (ids.foldl (fun st u => tsVisit edges R fuel u st) s).result ∨ x ∈ A)) ∧
        (∀ t ∈ ids, t ∈ R →
          t ∈ (ids.foldl (fun st u => tsVisit edges R fuel u st) s).visited) ∧
        (∀ x ∈ (ids.foldl (fun st u => tsVisit edges R fuel u st) s).visited,
          x ∈ s.visited ∨ x ∈ R)) := by
  intro fuel
  induction fuel with
  | zero =>
    exact ⟨fun n s A hf => absurd hf (by omega),
      fun ids s A hf => absurd hf (by omega)⟩
  | succ fuel ih =>
    have first : ∀ (n : String) (s : TSState) (A : List String),
        unvis R s.visited < fuel + 1 →
        (∀ x, x ∈ s.visited ↔ (x ∈ s.result ∨ x ∈ A)) →
        (∀ x ∈ s.visited, x ∈ (tsVisit edges R (fuel + 1) n s).visited) ∧
        (∃ tail, (tsVisit edges R (fuel + 1) n s).result = s.result ++ tail) ∧
        (∀ x, x ∈ (tsVisit edges R (fuel + 1) n s).visited ↔
          (x ∈ (tsVisit edges R (fuel + 1) n s).result ∨ x ∈ A)) ∧
        (n ∈ R → n ∈ (tsVisit edges R (fuel + 1) n s).visited) ∧
        (∀ x ∈ (tsVisit edges R (fuel + 1) n s).visited, x ∈ s.visited ∨ x ∈ R) := by
      intro n s A hf hinv
      by_cases hvis : n ∈ s.visited
      · have hbody : tsVisit edges R (fuel + 1) n s = s := by
          simp only [tsVisit, if_pos hvis]
        rw [hbody]
        exact ⟨fun x hx => hx, ⟨[], by simp⟩, hinv, fun _ => hvis, fun x hx => Or.inl hx⟩
      · by_cases hnR : n ∈ R
        · have hbody : tsVisit edges R (fuel + 1) n s =
              ⟨((edges.filter (fun e => e.target == n)).map (fun e => e.source)).foldl
                  (fun st u => tsVisit edges R fuel u st)
                  ⟨n :: s.visited, s.result⟩ |>.visited,
                (((edges.filter (fun e => e.target == n)).map (fun e => e.source)).foldl
                  (fun st u => tsVisit edges R fuel u st)
                  ⟨n :: s.visited, s.result⟩ |>.result) ++ [n]⟩ := by
            simp only [tsVisit, if_neg hvis, if_neg (not_not_intro hnR)]
          have hinv' : ∀ x, x ∈ (⟨n :: s.visited, s.result⟩ : TSState).visited ↔
              (x ∈ (⟨n :: s.visited, s.result⟩ : TSState).result ∨ x ∈ n :: A) := by
            intro x
            simp only [List.mem_cons]
            constructor
            · rintro (rfl | hx)
              · exact Or.inr (Or.inl rfl)
              · rcases (hinv x).1 hx with h | h
                · exact Or.inl h
                · exact Or.inr (Or.inr h)
            · rintro (h | rfl | h)
              · exact Or.inr ((hinv x).2 (Or.inl h))
              · exact Or.inl rfl
              · exact Or.inr ((hinv x).2 (Or.inr h))
          have hf' : unvis R (⟨n :: s.visited, s.result⟩ : TSState).visited < fuel := by
            show unvis R (n :: s.visited) < fuel
            have := @unvis_strict_mem R s.visited (n :: s.visited) n hnR hvis
              (fun x hx => List.mem_cons_of_mem _ hx) (by simp)
            omega
          obtain ⟨hsub, ⟨tl, htl⟩, hinv'', hts, hgrow⟩ := ih.2
            ((edges.filter (fun e => e.target == n)).map (fun e => e.source))
            ⟨n :: s.visited, s.result⟩ (n :: A) hf' hinv'
          rw [hbody]
          refine ⟨?_, ?_, ?_, ?_, ?_⟩
          · intro x hx
            exact hsub x (List.mem_cons_of_mem _ hx)
          · exact ⟨tl ++ [n], by simp [htl]⟩
          · intro x
            rw [hinv'' x]
            simp only [List.mem_append, List.mem_singleton, List.mem_cons]
            tauto
          · intro _
            exact hsub n (by simp)
          · intro x hx
            rcases hgrow x hx with h | h
            · rcases List.mem_cons.1 h with rfl | h
              · exact Or.inr hnR
              · exact Or.inl h
            · exact Or.inr h
        · have hbody : tsVisit edges R (fuel + 1) n s = s := by
            simp only [tsVisit, if_neg hvis, if_pos hnR]
          rw [hbody]
          exact ⟨fun x hx => hx, ⟨[], by simp⟩, hinv,
            fun h => absurd h hnR, fun x hx => Or.inl hx⟩
    refine ⟨first, ?_⟩
    intro ids
    induction ids with
    | nil =>
      intro s A hf hinv
      exact ⟨fun x hx => hx, ⟨[], by simp⟩, hinv, by simp, fun x hx => Or.inl hx⟩
    | cons t ts ihts =>
      intro s A hf hinv
      obtain ⟨hsub1, ⟨tl1, htl1⟩, hinv1, hmem1, hgrow1⟩ := first t s A hf hinv
      have hf2 : unvis R (tsVisit edges R (fuel + 1) t s).visited < fuel + 1 :=
        lt_of_le_of_lt (unvis_le_of_subset hsub1) hf
      obtain ⟨hsub2, ⟨tl2, htl2⟩, hinv2, hts2, hgrow2⟩ :=
        ihts (tsVisit edges R (fuel + 1) t s) A hf2 hinv1
      simp only [List.foldl_cons]
      refine ⟨?_, ?_, ?_, ?_, ?_⟩
      · intro x hx
        exact hsub2 x (hsub1 x hx)
      · exact ⟨tl1 ++ tl2, by simp [htl2, htl1]⟩
      · exact hinv2
      · intro u hu huR
        rcases List.mem_cons.1 hu with rfl | hu
        · exact hsub2 u (hmem1 huR)
        · exact hts2 u hu huR
      · intro x hx
        rcases hgrow2 x hx with h | h
        · exact hgrow1 x h
        · exact Or.inr h

theorem append_singleton_decomp {α : Type} {res l₁ l₂ : List α} {v n : α}
    (h : res ++ [n] = l₁ ++ v :: l₂) :
    (l₁ = res ∧ v = n ∧ l₂ = []) ∨ ∃ l₂', l₂ = l₂' ++ [n] ∧ res = l₁ ++ v :: l₂' := by
  rcases List.eq_nil_or_concat l₂ with rfl | ⟨l₂', a, rfl⟩
  · left
    have hlen : res.length = l₁.length := by
      have := congrArg List.length h
      simp at this
      omega
    rcases List.append_inj h hlen with ⟨h1, h2⟩
    have hv : n = v := by simpa using h2
    exact ⟨h1.symm, hv.symm, rfl⟩
  · right
    have hconcat : res ++ [n] = (l₁ ++ v :: l₂') ++ [a] := by
      simpa [List.concat_eq_append] using h
    have hlen : res.length = (l₁ ++ v :: l₂').length := by
      have := congrArg List.length hconcat
      simp at this
      simp
      omega
    rcases List.append_inj hconcat hlen with ⟨h1, h2⟩
    have hv : n = a := by simpa using h2
    exact ⟨l₂', by simp [List.concat_eq_append, hv], h1⟩

theorem tsVisit_sorted_pack (edges : List PipelineEdge) (R : List String)
    (hacyc : AcyclicOn edges R) :
    ∀ fuel,
      (∀ (n : String) (s : TSState) (A : List String),
        unvis R s.visited < fuel →
        (∀ x, x ∈ s.visited ↔ (x ∈ s.result ∨ x ∈ A)) →
        (n ∈ R → ∀ a ∈ A, Relation.ReflTransGen (stepIn edges R) n a) →
        SortedRes edges R s.result →
        SortedRes edges R (tsVisit edges R fuel n s).result) ∧
      (∀ (ids : List String) (s : TSState) (A : List String),
        unvis R s.visited < fuel →
        (∀ x, x ∈ s.visited ↔ (x ∈ s.result ∨ x ∈ A)) →
        (∀ t ∈ ids, t ∈ R → ∀ a ∈ A, Relation.ReflTransGen (stepIn edges R) t a) →
        SortedRes edges R s.result →
        SortedRes edges R
          ((ids.foldl (fun st u => tsVisit edges R fuel u st) s)).result) := by
  intro fuel
  induction fuel with
  | zero =>
    exact ⟨fun n s A hf => absurd hf (by omega),
      fun ids s A hf => absurd hf (by omega)⟩
  | succ fuel ih =>
    have first : ∀ (n : String) (s : TSState) (A : List String),
        unvis R s.visited < fuel + 1 →
        (∀ x, x ∈ s.visited ↔ (x ∈ s.result ∨ x ∈ A)) →
        (n ∈ R → ∀ a ∈ A, Relation.ReflTransGen (stepIn edges R) n a) →
        SortedRes edges R s.result →
        SortedRes edges R (tsVisit edges R (fuel + 1) n s).result := by
      intro n s A hf hinv hA hsorted
      by_cases hvis : n ∈ s.visited
      · simpa only [tsVisit, if_pos hvis] using hsorted
      · by_cases hnR : n ∈ R
        · have hbody : tsVisit edges R (fuel + 1) n s =
              ⟨((edges.filter (fun e => e.target == n)).map (fun e => e.source)).foldl
                  (fun st u => tsVisit edges R fuel u st)
                  ⟨n :: s.visited, s.result⟩ |>.visited,
                (((edges.filter (fun e => e.target == n)).map (fun e => e.source)).foldl
                  (fun st u => tsVisit edges R fuel u st)
                  ⟨n :: s.visited, s.result⟩ |>.result) ++ [n]⟩ := by
            simp only [tsVisit, if_neg hvis, if_neg (not_not_intro hnR)]
          have hinv' : ∀ x, x ∈ (⟨n :: s.visited, s.result⟩ : TSState).visited ↔
              (x ∈ (⟨n :: s.visited, s.result⟩ : TSState).result ∨ x ∈ n :: A) := by
            intro x
            simp only [List.mem_cons]
            constructor
            · rintro (rfl | hx)
              · exact Or.inr (Or.inl rfl)
              · rcases (hinv x).1 hx with h | h
                · exact Or.inl h
                · exact Or.inr (Or.inr h)
            · rintro (h | rfl | h)
              · exact Or.inr ((hinv x).2 (Or.inl h))
              · exact Or.inl rfl
              · exact Or.inr ((hinv x).2 (Or.inr h))
          have hf' : unvis R (⟨n :: s.visited, s.result⟩ : TSState).visited < fuel := by
            show unvis R (n :: s.visited) < fuel
            have := @unvis_strict_mem R s.visited (n :: s.visited) n hnR hvis
              (fun x hx => List.mem_cons_of_mem _ hx) (by simp)
            omega
          have hA' : ∀ t ∈ (edges.filter (fun e => e.target == n)).map (fun e => e.source),
              t ∈ R → ∀ a ∈ n :: A, Relation.ReflTransGen (stepIn edges R) t a := by
            intro t ht htR a ha
            rcases mem_sources_iff.1 ht with ⟨e, he, htgt, hsrc⟩
            have hstep : stepIn edges R t n := ⟨⟨e, he, hsrc, htgt⟩, htR, hnR⟩
            rcases List.mem_cons.1 ha with rfl | ha
            · exact Relation.ReflTransGen.single hstep
            · exact Relation.ReflTransGen.trans
                (Relation.ReflTransGen.single hstep) (hA hnR a ha)
          have hsorted'' := ih.2
            ((edges.filter (fun e => e.target == n)).map (fun e => e.source))
            ⟨n :: s.visited, s.result⟩ (n :: A) hf' hinv' hA' hsorted
          obtain ⟨-, -, hinv'', hts, -⟩ := (tsVisit_set_pack edges R fuel).2
            ((edges.filter (fun e => e.target == n)).map (fun e => e.source))
            ⟨n :: s.visited, s.result⟩ (n :: A) hf' hinv'
          rw [hbody]
          intro l₁ v l₂ hdecomp u hstep huR
          rcases append_singleton_decomp hdecomp with ⟨hl₁, hv, -⟩ | ⟨l₂', -, hres⟩
          · rcases hstep with ⟨e, he, hsrc, htgt⟩
            have htgt' : e.target = n := hv ▸ htgt
            have humem : u ∈ (edges.filter (fun e => e.target == n)).map
                (fun e => e.source) := mem_sources_iff.2 ⟨e, he, htgt', hsrc⟩
            have huvis := hts u humem huR
            rcases (hinv'' u).1 huvis with h | h
            · exact hl₁ ▸ h
            · rcases List.mem_cons.1 h with rfl | h
              · exact absurd (Relation.TransGen.single ⟨⟨e, he, hsrc, htgt'⟩, huR, hnR⟩)
                  (hacyc u)
              · exact absurd (Relation.TransGen.head'
                  ⟨⟨e, he, hsrc, htgt'⟩, huR, hnR⟩ (hA hnR u h)) (hacyc u)
          · exact hsorted'' l₁ v l₂' hres u hstep huR
        · simpa only [tsVisit, if_neg hvis, if_pos hnR] using hsorted
    refine ⟨first, ?_⟩
    intro ids
    induction ids with
    | nil =>
      intro s A hf hinv hAhyp hsorted
      simpa using hsorted
    | cons t ts ihts =>
      intro s A hf hinv hAhyp hsorted
      obtain ⟨-, -, hinv1, -, -⟩ := (tsVisit_set_pack edges R (fuel + 1)).1 t s A hf hinv
      have hsorted1 := first t s A hf hinv (fun htR => hAhyp t (by simp) htR) hsorted
      have hf2 : unvis R (tsVisit edges R (fuel + 1) t s).visited < fuel + 1 :=
        lt_of_le_of_lt
          (unvis_le_of_subset ((tsVisit_set_pack edges R (fuel + 1)).1 t s A hf hinv).1)
          hf
      simp only [List.foldl_cons]
      exact ihts (tsVisit edges R (fuel + 1) t s) A hf2 hinv1
        (fun u hu huR => hAhyp u (List.mem_cons_of_mem _ hu) huR) hsorted1

theorem unvis_lt_fuel (R visited : List String) :
    unvis R visited ≤ R.length := by
  unfold unvis
  exact List.length_filter_le _ _

theorem topologicalSort_mem (p : Pipeline) (R : List String) :
    (∀ x ∈ topologicalSort p R, x ∈ R) ∧ (∀ x ∈ R, x ∈ topologicalSort p R) := by
  have heq : topologicalSort p R =
      (R.foldl (fun st nid => tsVisit p.edges R (R.length + 1) nid st)
        (((p.nodes.filter (fun node => node.id ∈ R
            && !(p.edges.any (fun e => e.target == node.id)))).map (fun n => n.id)).foldl
          (fun st nid => tsVisit p.edges R (R.length + 1) nid st)
          ⟨[], []⟩)).result := rfl
  have hinv0 : ∀ x, x ∈ (⟨[], []⟩ : TSState).visited ↔
      (x ∈ (⟨[], []⟩ : TSState).result ∨ x ∈ ([] : List String)) := by simp
  have hf0 : unvis R (⟨[], []⟩ : TSState).visited < R.length + 1 := by
    show unvis R [] < R.length + 1
    have := unvis_lt_fuel R []
    omega
  obtain ⟨hsub1, -, hinv1, -, hgrow1⟩ := (tsVisit_set_pack p.edges R (R.length + 1)).2
    ((p.nodes.filter (fun node => node.id ∈ R
        && !(p.edges.any (fun e => e.target == node.id)))).map (fun n => n.id))
    ⟨[], []⟩ [] hf0 hinv0
  have hf1 : unvis R (((p.nodes.filter (fun node => node.id ∈ R
      && !(p.edges.any (fun e => e.target == node.id)))).map (fun n => n.id)).foldl
        (fun st nid => tsVisit p.edges R (R.length + 1) nid st) ⟨[], []⟩).visited
      < R.length + 1 := by
    have h1 : unvis R (((p.nodes.filter (fun node => node.id ∈ R
        && !(p.edges.any (fun e => e.target == node.id)))).map (fun n => n.id)).foldl
          (fun st nid => tsVisit p.edges R (R.length + 1) nid st) ⟨[], []⟩).visited
        ≤ R.length := unvis_lt_fuel R _
    omega
  obtain ⟨hsub2, -, hinv2, hts2, hgrow2⟩ := (tsVisit_set_pack p.edges R (R.length + 1)).2
    R _ [] hf1 hinv1
  constructor
  · intro x hx
    rw [heq] at hx
    have hvis : x ∈ _ := (hinv2 x).2 (Or.inl hx)
    rcases hgrow2 x hvis with h | h
    · rcases hgrow1 x h with h' | h'
      · simp at h'
      · exact h'
    · exact h
  · intro x hx
    rw [heq]
    have hvis := hts2 x hx hx
    rcases (hinv2 x).1 hvis with h | h
    · exact h
    · simp at h

theorem topologicalSort_sorted (p : Pipeline) (R : List String)
    (hacyc : AcyclicOn p.edges R) :
    SortedRes p.edges R (topologicalSort p R) := by
  have heq : topologicalSort p R =
      (R.foldl (fun st nid => tsVisit p.edges R (R.length + 1) nid st)
        (((p.nodes.filter (fun node => node.id ∈ R
            && !(p.edges.any (fun e => e.target == node.id)))).map (fun n => n.id)).foldl
          (fun st nid => tsVisit p.edges R (R.length + 1) nid st)
          ⟨[], []⟩)).result := rfl
  have hinv0 : ∀ x, x ∈ (⟨[], []⟩ : TSState).visited ↔
      (x ∈ (⟨[], []⟩ : TSState).result ∨ x ∈ ([] : List String)) := by simp
  have hf0 : unvis R (⟨[], []⟩ : TSState).visited < R.length + 1 := by
    show unvis R [] < R.length + 1
    have := unvis_lt_fuel R []
    omega
  have hsorted0 : SortedRes p.edges R (⟨[], []⟩ : TSState).result := by
    intro l₁ v l₂ hdecomp
    exact absurd hdecomp (by simp)
  have hA0 : ∀ t ∈ ((p.nodes.filter (fun node => node.id ∈ R
      && !(p.edges.any (fun e => e.target == node.id)))).map (fun n => n.id)),
      t ∈ R → ∀ a ∈ ([] : List String),
        Relation.ReflTransGen (stepIn p.edges R) t a := by
    intro t _ _ a ha
    simp at ha
  obtain ⟨-, -, hinv1, -, -⟩ := (tsVisit_set_pack p.edges R (R.length + 1)).2
    ((p.nodes.filter (fun node => node.id ∈ R
        && !(p.edges.any (fun e => e.target == node.id)))).map (fun n => n.id))
    ⟨[], []⟩ [] hf0 hinv0
  have hsorted1 := (tsVisit_sorted_pack p.edges R hacyc (R.length + 1)).2
    ((p.nodes.filter (fun node => node.id ∈ R
        && !(p.edges.any (fun e => e.target == node.id)))).map (fun n => n.id))
    ⟨[], []⟩ [] hf0 hinv0 hA0 hsorted0
  have hf1 : unvis R (((p.nodes.filter (fun node => node.id ∈ R
      && !(p.edges.any (fun e => e.target == node.id)))).map (fun n => n.id)).foldl
        (fun st nid => tsVisit p.edges R (R.length + 1) nid st) ⟨[], []⟩).visited
      < R.length + 1 := by
    have h1 := unvis_lt_fuel R (((p.nodes.filter (fun node => node.id ∈ R
        && !(p.edges.any (fun e => e.target == node.id)))).map (fun n => n.id)).foldl
          (fun st nid => tsVisit p.edges R (R.length + 1) nid st) ⟨[], []⟩).visited

    omega
  have hsorted2 := (tsVisit_sorted_pack p.edges R hacyc (R.length + 1)).2
    R _ [] hf1 hinv1 (fun t _ _ a ha => by simp at ha) hsorted1
  rw [heq]
  exact hsorted2

end TopoLemmas

section RunNodesLemmas

theorem nrKeys_nrSet (acc : NodeResults) (k : String) (v : List Row) (x : String) :
    x ∈ nrKeys (nrSet acc k v) ↔ x ∈ nrKeys acc ∨ x = k := by
  unfold nrKeys nrSet
  by_cases hany : acc.any (fun p => p.1 == k) = true
  · rw [if_pos hany]
    have hmap : (acc.map (fun p => if p.1 == k then (k, v) else p)).map (fun p => p.1)
        = acc.map (fun p => p.1) := by
      rw [List.map_map]
      apply List.map_congr_left
      intro p _
      by_cases hp : p.1 = k
      · simp [beq_iff_eq, hp]
      · simp [beq_iff_eq, hp]
    rw [hmap]
    constructor
    · exact Or.inl
    · rintro (h | rfl)
      · exact h
      · rcases List.any_eq_true.1 hany with ⟨p, hp, hpk⟩
        exact List.mem_map.2 ⟨p, hp, beq_iff_eq.1 hpk⟩
  · rw [if_neg hany]
    simp [List.map_append]

theorem runNodes_append (ctx : EngineCtx) (p : Pipeline) :
    ∀ (l₁ l₂ : List String) (acc : NodeResults),
      runNodes ctx p (l₁ ++ l₂) acc =
        match runNodes ctx p l₁ acc with
        | .error msg => .error msg
        | .ok acc' => runNodes ctx p l₂ acc' := by
  intro l₁
  induction l₁ with
  | nil => intro l₂ acc; rfl
  | cons nid rest ih =>
    intro l₂ acc
    show runNodes ctx p (nid :: (rest ++ l₂)) acc = _
    rw [runNodes, runNodes]
    cases hfind : p.nodes.find? (fun n => n.id == nid) with
    | none =>
      dsimp only
      exact ih l₂ acc
    | some node =>
      dsimp only
      cases hexec : executeNode ctx node (getNodeInputData node p acc) with
      | error msg => rfl
      | ok out => exact ih l₂ (nrSet acc nid out)

theorem runNodes_ok_keys (ctx : EngineCtx) (p : Pipeline) :
    ∀ (order : List String) (acc res : NodeResults),
      runNodes ctx p order acc = .ok res →
      ∀ x, x ∈ nrKeys res ↔
        (x ∈ nrKeys acc ∨ (x ∈ order ∧ ∃ nd ∈ p.nodes, nd.id = x)) := by
  intro order
  induction order with
  | nil =>
    intro acc res h x
    cases h
    simp
  | cons nid rest ih =>
    intro acc res h x
    rw [runNodes] at h
    cases hfind : p.nodes.find? (fun n => n.id == nid) with
    | none =>
      rw [hfind] at h
      rw [ih acc res h x]
      have hno : ¬ ∃ nd ∈ p.nodes, nd.id = nid := by
        rintro ⟨nd, hnd, rfl⟩
        have := List.find?_eq_none.1 hfind nd hnd
        simp at this
      constructor
      · rintro (h' | ⟨hmem, hex⟩)
        · exact Or.inl h'
        · exact Or.inr ⟨List.mem_cons_of_mem _ hmem, hex⟩
      · rintro (h' | ⟨hmem, hex⟩)
        · exact Or.inl h'
        · rcases List.mem_cons.1 hmem with rfl | hmem
          · exact absurd hex hno
          · exact Or.inr ⟨hmem, hex⟩
    | some node =>
      rw [hfind] at h
      dsimp only at h
      cases hexec : executeNode ctx node (getNodeInputData node p acc) with
      | error msg => rw [hexec] at h; cases h
      | ok out =>
        rw [hexec] at h
        rw [ih _ res h x, nrKeys_nrSet]
        have hex : nid = x → ∃ nd ∈ p.nodes, nd.id = x := by
          rintro rfl
          have hpa : node.id = nid := by
            simpa using @List.find?_some _ (fun n => n.id == nid) node p.nodes hfind
          exact ⟨node, List.mem_of_find?_eq_some hfind, hpa⟩
        constructor
        · rintro ((h' | rfl) | ⟨hmem, hex'⟩)
          · exact Or.inl h'
          · exact Or.inr ⟨by simp, hex rfl⟩
          · exact Or.inr ⟨List.mem_cons_of_mem _ hmem, hex'⟩
        · rintro (h' | ⟨hmem, hex'⟩)
          · exact Or.inl (Or.inl h')
          · rcases List.mem_cons.1 hmem with rfl | hmem
            · exact Or.inl (Or.inr rfl)
            · exact Or.inr ⟨hmem, hex'⟩

theorem runBody_ok_runNodes (ctx : EngineCtx) (p : Pipeline)
    (nr : NodeResults) (lr : List LeafNodeResult)
    (h : runBody ctx p = .ok (nr, lr)) :
    runNodes ctx p (topologicalSort p (reachableList p)) [] = .ok nr := by
  unfold runBody at h
  by_cases hds : (p.nodes.filter (fun n => n.type == "dataSource")).length = 0
  · rw [if_pos hds] at h
    cases h
  · rw [if_neg hds] at h
    cases hrn : runNodes ctx p (topologicalSort p (reachableList p)) [] with
    | error msg => rw [hrn] at h; cases h
    | ok nres =>
      rw [hrn] at h
      dsimp only at h
      cases hlm : (findLeafNodes p (reachableList p)).mapM (fun nodeId =>
          match p.nodes.find? (fun n => n.id == nodeId) with
          | none => (.error "Cannot read properties of undefined (reading 'label')" :
              Except String LeafNodeResult)
          | some node => .ok
            { nodeId := nodeId
              nodeLabel := node.label
              nodeType := node.type
              data := (nrFind nres nodeId).getD [] }) with
      | error msg => rw [hlm] at h; cases h
      | ok lres =>
        rw [hlm] at h
        dsimp only at h
        cases h
        rfl

end RunNodesLemmas

/-- C2: on the non-cached path, a successful execute produces a
nodeResults map whose key set is exactly the set of node ids reachable by
a directed path of length zero or more from some node of type dataSource
(given unique node ids and edges whose endpoints are existing node ids);
in particular an orphaned node never appears in nodeResults. -/
theorem c2_nodeResults_keys_are_reachable (ctx : EngineCtx) (cfg : CacheConfig)
    (cache : PipeCache) (t0 t1 : Int) (p : Pipeline)
    (_hnodup : (p.nodes.map (fun n => n.id)).Nodup)
    (hclosed : ∀ e ∈ p.edges, (∃ n ∈ p.nodes, n.id = e.source) ∧
      (∃ n ∈ p.nodes, n.id = e.target))
    (hok : (execute ctx cfg cache t0 t1 p false).1.status = "success") :
    ∀ x, x ∈ nrKeys (((execute ctx cfg cache t0 t1 p false).1.nodeResults).getD [])
      ↔ reachSpec p x := by
  cases hrb : runBody ctx p with
  | error msg =>
    rw [execute_no_cache_err ctx cfg cache t0 t1 p msg hrb] at hok
    simp at hok
  | ok res =>
    intro x
    rw [execute_no_cache_ok ctx cfg cache t0 t1 p res.1 res.2 (by simpa using hrb)]
    simp only [Option.getD_some]
    have hrn := runBody_ok_runNodes ctx p res.1 res.2 (by simpa using hrb)
    rw [runNodes_ok_keys ctx p _ [] res.1 hrn x]
    simp only [nrKeys, List.map_nil, List.not_mem_nil, false_or]
    constructor
    · rintro ⟨hx, -⟩
      exact (reachableList_iff p x).1 ((topologicalSort_mem p _).1 x hx)
    · intro hreach
      have hxr : x ∈ reachableList p := (reachableList_iff p x).2 hreach
      refine ⟨(topologicalSort_mem p _).2 x hxr, ?_⟩
      rcases hreach with ⟨d, hd, -, hrtg⟩
      rcases Relation.ReflTransGen.cases_tail hrtg with rfl | ⟨c, -, hstep⟩
      · exact ⟨d, hd, rfl⟩
      · rcases hstep with ⟨e, he, -, htgt⟩
        rcases (hclosed e he).2 with ⟨nd, hnd, hid⟩
        exact ⟨nd, hnd, htgt ▸ hid⟩

/-- Witness for C2 on the scenario pipeline, evaluated at the filter
node id. -/
theorem c2_nodeResults_keys_are_reachable_witness :
    "flt" ∈ nrKeys (((execute scenarioCtx {} [] 0 10 scenarioPipeline
        false).1.nodeResults).getD [])
      ↔ reachSpec scenarioPipeline "flt" :=
  c2_nodeResults_keys_are_reachable scenarioCtx {} [] 0 10 scenarioPipeline
    (by decide) (by decide) (by decide) "flt"

/-- A ranking function increasing along every restricted edge rules out
cycles; used to discharge acyclicity at concrete pipelines. -/
theorem acyclicOn_of_rank (edges : List PipelineEdge) (R : List String)
    (f : String → Nat)
    (h : ∀ e ∈ edges, e.source ∈ R → e.target ∈ R → f e.source < f e.target) :
    AcyclicOn edges R := by
  have hmono : ∀ a b, Relation.TransGen (stepIn edges R) a b → f a < f b := by
    intro a b h'
    induction h' with
    | single hs =>
      rcases hs with ⟨⟨e, he, hsrc, htgt⟩, haR, hbR⟩
      exact hsrc ▸ htgt ▸ h e he (hsrc ▸ haR) (htgt ▸ hbR)
    | tail h₁ hs ih =>
      rcases hs with ⟨⟨e, he, hsrc, htgt⟩, haR, hbR⟩
      exact lt_trans ih (hsrc ▸ htgt ▸ h e he (hsrc ▸ haR) (htgt ▸ hbR))
  intro x hx
  exact absurd (hmono x x hx) (lt_irrefl _)

/-- C3: when the edge relation restricted to the reachable set is acyclic,
the computed execution order places the source of every reachable edge
strictly before its target, so by the time the node-execution loop reaches
a node, every reachable predecessor already has its output stored in
nodeResults. -/
theorem c3_topological_execution_order (ctx : EngineCtx) (p : Pipeline)
    (hacyc : AcyclicOn p.edges (reachableList p))
    (hclosed : ∀ e ∈ p.edges, ∃ n ∈ p.nodes, n.id = e.source) :
    (∀ e ∈ p.edges, e.source ∈ reachableList p → e.target ∈ reachableList p →
      ∀ l₁ l₂, topologicalSort p (reachableList p) = l₁ ++ e.target :: l₂ →
        e.source ∈ l₁) ∧
    (∀ l₁ v l₂, topologicalSort p (reachableList p) = l₁ ++ v :: l₂ →
      ∀ nr, runNodes ctx p (topologicalSort p (reachableList p)) [] = .ok nr →
      ∃ acc, runNodes ctx p l₁ [] = .ok acc ∧
        ∀ e ∈ p.edges, e.target = v → e.source ∈ reachableList p →
          e.source ∈ nrKeys acc) := by
  have horder : ∀ e ∈ p.edges, e.source ∈ reachableList p →
      e.target ∈ reachableList p →
      ∀ l₁ l₂, topologicalSort p (reachableList p) = l₁ ++ e.target :: l₂ →
        e.source ∈ l₁ := by
    intro e he hsrcR htgtR l₁ l₂ hdecomp
    exact topologicalSort_sorted p (reachableList p) hacyc l₁ e.target l₂ hdecomp
      e.source ⟨e, he, rfl, rfl⟩ hsrcR
  refine ⟨horder, ?_⟩
  intro l₁ v l₂ hdecomp nr hrun
  rw [hdecomp, runNodes_append ctx p l₁ (v :: l₂) []] at hrun
  cases hpre : runNodes ctx p l₁ [] with
  | error msg => rw [hpre] at hrun; cases hrun
  | ok acc =>
    refine ⟨acc, rfl, ?_⟩
    intro e he htgt hsrcR
    have htgtR : v ∈ reachableList p :=
      (topologicalSort_mem p (reachableList p)).1 v (by rw [hdecomp]; simp)
    have hmem : e.source ∈ l₁ := horder e he hsrcR (htgt ▸ htgtR) l₁ l₂
      (by rw [hdecomp, htgt])
    rw [runNodes_ok_keys ctx p l₁ [] acc hpre e.source]
    rcases hclosed e he with ⟨nd, hnd, hid⟩
    exact Or.inr ⟨hmem, nd, hnd, hid⟩

/-- Witness for C3 on the scenario pipeline: the edge from the filter node
into the aggregate node puts flt before agg in the computed order. -/
theorem c3_topological_execution_order_witness :
    ("flt" : String) ∈ ["src", "flt"] :=
  (c3_topological_execution_order scenarioCtx scenarioPipeline
      (acyclicOn_of_rank scenarioPipeline.edges (reachableList scenarioPipeline)
        (fun id => if id = "src" then 0 else if id = "flt" then 1 else 2)
        (by decide))
      (by decide)).1
    ⟨"flt", "agg", none⟩ (by decide) (by decide) (by decide)
    ["src", "flt"] [] (by decide)

section CachePathLemmas

theorem execute_cache_hit (ctx : EngineCtx) (cfg : CacheConfig) (cache : PipeCache)
    (t0 t1 : Int) (p : Pipeline) (cr : PipelineExecutionCache) (c₁ : PipeCache)
    (h : getPipelineExecution cache t0 p.id (calculatePipelineHash p) = (some cr, c₁)) :
    execute ctx cfg cache t0 t1 p true =
      ({ pipelineId := p.id
         status := "success"
         data := some ((cr.leafResults.head?.map (fun l => l.data)).getD [])
         leafResults := some cr.leafResults
         executionTime := cr.executionTime
         nodeResults := some cr.nodeResults
         error := none
         cached := true }, c₁) := by
  simp [execute, h]

theorem execute_true_miss_ok (ctx : EngineCtx) (cfg : CacheConfig) (cache : PipeCache)
    (t0 t1 : Int) (p : Pipeline) (c₁ : PipeCache) (nr : NodeResults)
    (lr : List LeafNodeResult)
    (h : getPipelineExecution cache t0 p.id (calculatePipelineHash p) = (none, c₁))
    (hrb : runBody ctx p = .ok (nr, lr)) :
    execute ctx cfg cache t0 t1 p true =
      ({ pipelineId := p.id
         status := "success"
         data := some (if lr.length > 0 then (lr.head?.map (fun l => l.data)).getD [] else [])
         leafResults := some lr
         executionTime := t1 - t0
         nodeResults := some nr
         error := none
         cached := false },
       cachePipelineExecution cfg c₁ t1 p.id (calculatePipelineHash p) nr lr (t1 - t0)) := by
  simp [execute, h, hrb]

theorem execute_true_miss_err (ctx : EngineCtx) (cfg : CacheConfig) (cache : PipeCache)
    (t0 t1 : Int) (p : Pipeline) (c₁ : PipeCache) (msg : String)
    (h : getPipelineExecution cache t0 p.id (calculatePipelineHash p) = (none, c₁))
    (hrb : runBody ctx p = .error msg) :
    execute ctx cfg cache t0 t1 p true =
      ({ pipelineId := p.id
         status := "error"
         data := none
         leafResults := none
         executionTime := t1 - t0
         nodeResults := none
         error := some msg
         cached := false }, c₁) := by
  simp [execute, h, hrb]

end CachePathLemmas

/-- C7: execute never propagates an exception — it always returns a
structured result whose status is success or error, an error result
carries the triggering message and the elapsed time and holds no partial
nodeResults, leafResults or data, and on the non-cached path any failure
of the execution body surfaces with exactly its message. -/
theorem c7_errors_are_structured (ctx : EngineCtx) (cfg : CacheConfig)
    (cache : PipeCache) (t0 t1 : Int) (p : Pipeline) (useCache : Bool) :
    ((execute ctx cfg cache t0 t1 p useCache).1.status = "success" ∨
      (execute ctx cfg cache t0 t1 p useCache).1.status = "error") ∧
    ((execute ctx cfg cache t0 t1 p useCache).1.status = "error" →
      (execute ctx cfg cache t0 t1 p useCache).1.nodeResults = none ∧
      (execute ctx cfg cache t0 t1 p useCache).1.leafResults = none ∧
      (execute ctx cfg cache t0 t1 p useCache).1.data = none ∧
      (execute ctx cfg cache t0 t1 p useCache).1.executionTime = t1 - t0 ∧
      ∃ msg, runBody ctx p = .error msg ∧
        (execute ctx cfg cache t0 t1 p useCache).1.error = some msg) ∧
    (∀ msg, runBody ctx p = .error msg → useCache = false →
      (execute ctx cfg cache t0 t1 p useCache).1.status = "error" ∧
      (execute ctx cfg cache t0 t1 p useCache).1.error = some msg) := by
  have main : ∀ r : ExecutionResult × PipeCache, r = execute ctx cfg cache t0 t1 p useCache →
      (r.1.status = "success" ∨ r.1.status = "error") ∧
      (r.1.status = "error" →
        r.1.nodeResults = none ∧ r.1.leafResults = none ∧ r.1.data = none ∧
        r.1.executionTime = t1 - t0 ∧
        ∃ msg, runBody ctx p = .error msg ∧ r.1.error = some msg) := by
    intro r hr
    cases useCache with
    | false =>
      cases hrb : runBody ctx p with
      | ok res =>
        rw [hr]
        rw [execute_no_cache_ok ctx cfg cache t0 t1 p res.1 res.2 (by simpa using hrb)]
        exact ⟨Or.inl rfl, by intro h; simp at h⟩
      | error msg =>
        rw [hr]
        rw [execute_no_cache_err ctx cfg cache t0 t1 p msg hrb]
        exact ⟨Or.inr rfl, fun _ => ⟨rfl, rfl, rfl, rfl, msg, rfl, rfl⟩⟩
    | true =>
      rcases hget : getPipelineExecution cache t0 p.id (calculatePipelineHash p) with
        ⟨o, c₁⟩
      cases o with
      | some cr =>
        rw [hr, execute_cache_hit ctx cfg cache t0 t1 p cr c₁ hget]
        exact ⟨Or.inl rfl, by intro h; simp at h⟩
      | none =>
        cases hrb : runBody ctx p with
        | ok res =>
          rw [hr, execute_true_miss_ok ctx cfg cache t0 t1 p c₁ res.1 res.2 hget
            (by simpa using hrb)]
          exact ⟨Or.inl rfl, by intro h; simp at h⟩
        | error msg =>
          rw [hr, execute_true_miss_err ctx cfg cache t0 t1 p c₁ msg hget hrb]
          exact ⟨Or.inr rfl, fun _ => ⟨rfl, rfl, rfl, rfl, msg, rfl, rfl⟩⟩
  obtain ⟨h1, h2⟩ := main (execute ctx cfg cache t0 t1 p useCache) rfl
  refine ⟨h1, h2, ?_⟩
  rintro msg hrb rfl
  rw [execute_no_cache_err ctx cfg cache t0 t1 p msg hrb]
  exact ⟨rfl, rfl⟩

/-- Witness for C7: a pipeline without any data source yields the
structured configuration error. -/
theorem c7_errors_are_structured_witness :
    (execute scenarioCtx {} [] 0 10 { id := "empty", nodes := [], edges := [] }
        false).1.status = "error" ∧
    (execute scenarioCtx {} [] 0 10 { id := "empty", nodes := [], edges := [] }
        false).1.error = some "No data source node found in pipeline" :=
  (c7_errors_are_structured scenarioCtx {} [] 0 10
      { id := "empty", nodes := [], edges := [] } false).2.2
    "No data source node found in pipeline" rfl rfl

/-- C4 counterexample: with a configured leaf-row cap of 1, executing the
same unmodified single-source pipeline twice with useCache=true gives a
second call that is served from cache (cached = true) yet returns
leafResults different from the first call — the cached copy was
row-truncated — so the claim that both calls return identical leafResults
fails as stated. -/
theorem c4_cache_idempotence_counterexample :
    (execute scenarioCtx tinyCacheConfig
        (execute scenarioCtx tinyCacheConfig [] 0 10 singleNodePipeline true).2
        20 30 singleNodePipeline true).1.cached = true ∧
    (execute scenarioCtx tinyCacheConfig
        (execute scenarioCtx tinyCacheConfig [] 0 10 singleNodePipeline true).2
        20 30 singleNodePipeline true).1.leafResults ≠
      (execute scenarioCtx tinyCacheConfig [] 0 10 singleNodePipeline
        true).1.leafResults := by
  constructor <;> with_unfolding_all decide

/-- C4 (amended): executing the same unmodified pipeline twice with
useCache=true, with no intervening invalidation or TTL expiry, returns
identical leafResults on both calls provided every leaf of the first
execution is within the configured leaf-row cap (otherwise the second,
cached copy is row-truncated); the second call reports cached=true with
the originally recorded execution time; the structural hash ignores node
position and label, and equals another pipeline's hash exactly when the
id/type/config projection of the nodes and the source/target projection
of the edges agree — so a position-only edit never invalidates the cache
and a config change always does. -/
theorem c4_cache_idempotence_amended (ctx : EngineCtx) (cfg : CacheConfig)
    (c0 : PipeCache) (t0 t1 t2 t3 : Int) (p : Pipeline)
    (hmiss : pcGet c0 p.id = none)
    (hlen : c0.length < cfg.maxCacheEntries)
    (httl : t2 - t1 ≤ cfg.pipelineExecutionTTL)
    (hok : (execute ctx cfg c0 t0 t1 p true).1.status = "success")
    (hcap : ∀ leaf ∈ ((execute ctx cfg c0 t0 t1 p true).1.leafResults).getD [],
      leaf.data.length ≤ cfg.maxExecutionResultRows) :
    ((execute ctx cfg (execute ctx cfg c0 t0 t1 p true).2 t2 t3 p true).1.leafResults
        = (execute ctx cfg c0 t0 t1 p true).1.leafResults ∧
      (execute ctx cfg (execute ctx cfg c0 t0 t1 p true).2 t2 t3 p true).1.cached = true ∧
      (execute ctx cfg (execute ctx cfg c0 t0 t1 p true).2 t2 t3 p true).1.executionTime
        = (execute ctx cfg c0 t0 t1 p true).1.executionTime ∧
      (execute ctx cfg (execute ctx cfg c0 t0 t1 p true).2 t2 t3 p true).1.status
        = "success") ∧
    (∀ (f : PipelineNode → Int × Int) (g : PipelineNode → String),
      calculatePipelineHash
          { p with nodes := p.nodes.map (fun n => { n with position := f n, label := g n }) }
        = calculatePipelineHash p) ∧
    (∀ q : Pipeline, calculatePipelineHash p = calculatePipelineHash q ↔
      (p.nodes.map (fun n => (n.id, n.type, n.config))
          = q.nodes.map (fun n => (n.id, n.type, n.config)) ∧
        p.edges.map (fun e => (e.source, e.target))
          = q.edges.map (fun e => (e.source, e.target)))) := by
  have hget0 : getPipelineExecution c0 t0 p.id (calculatePipelineHash p) = (none, c0) := by
    simp [getPipelineExecution, hmiss]
  refine ⟨?_, ?_, ?_⟩
  · cases hrb : runBody ctx p with
    | error msg =>
      rw [execute_true_miss_err ctx cfg c0 t0 t1 p c0 msg hget0 hrb] at hok
      simp at hok
    | ok res =>
      have hfirst := execute_true_miss_ok ctx cfg c0 t0 t1 p c0 res.1 res.2 hget0
        (by simpa using hrb)
      have hc1 : (execute ctx cfg c0 t0 t1 p true).2
          = cachePipelineExecution cfg c0 t1 p.id (calculatePipelineHash p)
              res.1 res.2 (t1 - t0) := by rw [hfirst]
      have hstored := pcGet_cachePipelineExecution_self cfg c0 t1 p.id
        (calculatePipelineHash p) res.1 res.2 (t1 - t0) hlen
      have hfreshttl : ¬ (t2 - t1 > cfg.pipelineExecutionTTL) := by omega
      have hget1 : getPipelineExecution
          (cachePipelineExecution cfg c0 t1 p.id (calculatePipelineHash p)
            res.1 res.2 (t1 - t0)) t2 p.id (calculatePipelineHash p)
          = (some { pipelineId := p.id
                    pipelineHash := calculatePipelineHash p
                    nodeResults := res.1.map (fun q => (q.1, q.2.take cfg.maxNodeResultRows))
                    leafResults := res.2.map (fun leaf =>
                      { leaf with data := leaf.data.take cfg.maxExecutionResultRows })
                    executionTime := t1 - t0
                    cachedAt := t1 },
             cachePipelineExecution cfg c0 t1 p.id (calculatePipelineHash p)
               res.1 res.2 (t1 - t0)) := by
        simp [getPipelineExecution, hstored, hfreshttl]
      have hsecond := execute_cache_hit ctx cfg
        (cachePipelineExecution cfg c0 t1 p.id (calculatePipelineHash p)
          res.1 res.2 (t1 - t0)) t2 t3 p _ _ hget1
      have hcapres : ∀ leaf ∈ res.2, leaf.data.length ≤ cfg.maxExecutionResultRows := by
        intro leaf hleaf
        have := hcap leaf
        rw [hfirst] at this
        exact this (by simpa using hleaf)
      have htrunc : res.2.map (fun leaf =>
          { leaf with data := leaf.data.take cfg.maxExecutionResultRows }) = res.2 := by
        conv_rhs => rw [← List.map_id res.2]
        apply List.map_congr_left
        intro leaf hleaf
        have := List.take_of_length_le (hcapres leaf hleaf)
        simp [this]
      rw [hc1, hsecond, hfirst]
      exact ⟨by simp [htrunc], rfl, rfl, rfl⟩
  · intro f g
    simp only [calculatePipelineHash, List.map_map]
    constructor
  · intro q
    simp only [calculatePipelineHash, PipelineHash.mk.injEq]

/-- Witness for C4 (amended) on the single-source pipeline with the
default cache configuration, specialized to the cached flag. -/
theorem c4_cache_idempotence_amended_witness :
    (execute scenarioCtx {}
        (execute scenarioCtx {} [] 0 10 singleNodePipeline true).2
        20 30 singleNodePipeline true).1.leafResults
      = (execute scenarioCtx {} [] 0 10 singleNodePipeline true).1.leafResults ∧
    (execute scenarioCtx {}
        (execute scenarioCtx {} [] 0 10 singleNodePipeline true).2
        20 30 singleNodePipeline true).1.cached = true ∧
    (execute scenarioCtx {}
        (execute scenarioCtx {} [] 0 10 singleNodePipeline true).2
        20 30 singleNodePipeline true).1.executionTime
      = (execute scenarioCtx {} [] 0 10 singleNodePipeline true).1.executionTime ∧
    (execute scenarioCtx {}
        (execute scenarioCtx {} [] 0 10 singleNodePipeline true).2
        20 30 singleNodePipeline true).1.status = "success" :=
  (c4_cache_idempotence_amended scenarioCtx {} [] 0 10 20 30 singleNodePipeline
    rfl (by decide) (by decide) (by with_unfolding_all decide)
    (by with_unfolding_all decide)).1

section StableSortLemmas

variable {α : Type} (le : α → α → Bool)

theorem orderedInsert_perm (x : α) :
    ∀ l : List α, (orderedInsert le x l).Perm (x :: l) := by
  intro l
  induction l with
  | nil => exact List.Perm.refl _
  | cons y ys ih =>
    unfold orderedInsert
    by_cases hle : le y x = true
    · rw [if_pos hle]
      exact (ih.cons y).trans (List.Perm.swap x y ys)
    · rw [if_neg hle]

theorem foldl_orderedInsert_perm :
    ∀ (l acc : List α),
      (l.foldl (fun acc x => orderedInsert le x acc) acc).Perm (acc ++ l) := by
  intro l
  induction l with
  | nil => simp
  | cons x xs ih =>
    intro acc
    simp only [List.foldl_cons]
    refine (ih (orderedInsert le x acc)).trans ?_
    have h1 : (orderedInsert le x acc ++ xs).Perm ((x :: acc) ++ xs) :=
      (orderedInsert_perm le x acc).append_right xs
    refine h1.trans ?_
    simpa using List.perm_middle.symm

theorem stableSortBy_perm (l : List α) : (stableSortBy le l).Perm l := by
  unfold stableSortBy
  simpa using foldl_orderedInsert_perm le l []

theorem orderedInsert_pairwise
    (htrans : ∀ a b c, le a b = true → le b c = true → le a c = true)
    (htot : ∀ a b, le a b = true ∨ le b a = true) (x : α) :
    ∀ l : List α, l.Pairwise (fun a b => le a b = true) →
      (orderedInsert le x l).Pairwise (fun a b => le a b = true) := by
  intro l
  induction l with
  | nil => intro _; simp [orderedInsert]
  | cons y ys ih =>
    intro hl
    rcases List.pairwise_cons.1 hl with ⟨hy, hys⟩
    unfold orderedInsert
    by_cases hle : le y x = true
    · rw [if_pos hle]
      refine List.pairwise_cons.2 ⟨?_, ih hys⟩
      intro b hb
      have hb' : b ∈ x :: ys := (orderedInsert_perm le x ys).mem_iff.1 hb
      rcases List.mem_cons.1 hb' with rfl | hb'
      · exact hle
      · exact hy b hb'
    · rw [if_neg hle]
      have hxy : le x y = true := by
        rcases htot x y with h | h
        · exact h
        · exact absurd h hle
      refine List.pairwise_cons.2 ⟨?_, hl⟩
      intro b hb
      rcases List.mem_cons.1 hb with rfl | hb
      · exact hxy
      · exact htrans x y b hxy (hy b hb)

theorem stableSortBy_pairwise
    (htrans : ∀ a b c, le a b = true → le b c = true → le a c = true)
    (htot : ∀ a b, le a b = true ∨ le b a = true) (l : List α) :
    (stableSortBy le l).Pairwise (fun a b => le a b = true) := by
  unfold stableSortBy
  have hgen : ∀ (l acc : List α), acc.Pairwise (fun a b => le a b = true) →
      (l.foldl (fun acc x => orderedInsert le x acc) acc).Pairwise
        (fun a b => le a b = true) := by
    intro l
    induction l with
    | nil => intro acc h; exact h
    | cons x xs ih =>
      intro acc h
      simp only [List.foldl_cons]
      exact ih _ (orderedInsert_pairwise le htrans htot x acc h)
  exact hgen l [] (by simp)

end StableSortLemmas

theorem charListLe_total : ∀ as bs : List Char,
    charListLe as bs = true ∨ charListLe bs as = true := by
  intro as
  induction as with
  | nil => intro bs; exact Or.inl rfl
  | cons a as ih =>
    intro bs
    cases bs with
    | nil => exact Or.inr rfl
    | cons b bs =>
      rcases lt_trichotomy a b with h | h | h
      · exact Or.inl (by simp [charListLe, h])
      · subst h
        rcases ih bs with h' | h'
        · exact Or.inl (by simp [charListLe, lt_irrefl, h'])
        · exact Or.inr (by simp [charListLe, lt_irrefl, h'])
      · exact Or.inr (by simp [charListLe, h])

theorem charListLe_trans : ∀ as bs cs : List Char,
    charListLe as bs = true → charListLe bs cs = true → charListLe as cs = true := by
  intro as
  induction as with
  | nil => intro bs cs _ _; rfl
  | cons a as ih =>
    intro bs cs hab hbc
    cases bs with
    | nil => simp [charListLe] at hab
    | cons b bs =>
      cases cs with
      | nil => simp [charListLe] at hbc
      | cons c cs =>
        rcases lt_trichotomy a b with h1 | h1 | h1
        · rcases lt_trichotomy b c with h2 | h2 | h2
          · simp [charListLe, lt_trans h1 h2]
          · subst h2
            simp [charListLe, h1]
          · simp [charListLe, h2.asymm, h2] at hbc
        · subst h1
          have hab2 : charListLe as bs = true := by
            simpa [charListLe, lt_irrefl] using hab
          rcases lt_trichotomy a c with h2 | h2 | h2
          · simp [charListLe, h2]
          · subst h2
            have hbc2 : charListLe bs cs = true := by
              simpa [charListLe, lt_irrefl] using hbc
            simpa [charListLe, lt_irrefl] using ih bs cs hab2 hbc2
          · simp [charListLe, h2.asymm, h2] at hbc
        · simp [charListLe, h1.asymm, h1] at hab

theorem strLe_total (a b : String) : strLe a b = true ∨ strLe b a = true :=
  charListLe_total a.data b.data

theorem strLe_trans (a b c : String) (hab : strLe a b = true) (hbc : strLe b c = true) :
    strLe a c = true :=
  charListLe_trans a.data b.data c.data hab hbc

/-- C8: for a custom node with several incoming edges, the input is one
row array per edge, ordered by the target handles of the edges under the lexical
string order (a missing or empty handle defaults to input-0) and not by
declaration order; in particular two edges tagged input-1 and input-0,
declared in that order, deliver the data of their sources in the order
(input-0 data, input-1 data). -/
theorem c8_custom_multi_input_order (p : Pipeline) (node : PipelineNode)
    (acc : NodeResults)
    (hcustom : node.type = "custom")
    (e₀ e₁ : PipelineEdge) (rest : List PipelineEdge)
    (hedges : p.edges.filter (fun e => e.target == node.id) = e₀ :: e₁ :: rest) :
    (∃ sorted : List PipelineEdge,
      getNodeInputData node p acc =
        .multi (sorted.map (fun e => (nrFind acc e.source).getD [])) ∧
      sorted.Perm (e₀ :: e₁ :: rest) ∧
      sorted.Pairwise (fun a b =>
        strLe (getNodeInputData.edgeHandle a) (getNodeInputData.edgeHandle b) = true)) ∧
    (∀ dA dB : List Row,
      getNodeInputData
          { id := "c", type := "custom", label := "", position := (0, 0), config := {} }
          { id := "pc", nodes := [],
            edges := [⟨"A", "c", some "input-1"⟩, ⟨"B", "c", some "input-0"⟩] }
          [("A", dA), ("B", dB)]
        = .multi [dB, dA]) := by
  constructor
  · refine ⟨stableSortBy (fun a b =>
      strLe (getNodeInputData.edgeHandle a) (getNodeInputData.edgeHandle b))
      (e₀ :: e₁ :: rest), ?_, ?_, ?_⟩
    · unfold getNodeInputData
      rw [hedges]
      simp [hcustom]
    · exact stableSortBy_perm _ _
    · exact stableSortBy_pairwise
        (fun a b => strLe (getNodeInputData.edgeHandle a) (getNodeInputData.edgeHandle b))
        (fun a b c hab hbc => strLe_trans _ _ _ hab hbc)
        (fun a b => strLe_total _ _)
        (e₀ :: e₁ :: rest)
  · intro dA dB
    rfl

/-- Witness for C8 with the two-input custom node over concrete rows. -/
theorem c8_custom_multi_input_order_witness :
    ∃ sorted : List PipelineEdge,
      getNodeInputData
          { id := "c", type := "custom", label := "", position := (0, 0), config := {} }
          { id := "pc", nodes := [],
            edges := [⟨"A", "c", some "input-1"⟩, ⟨"B", "c", some "input-0"⟩] }
          [("A", [rowA 1]), ("B", [rowA 2])] =
        .multi (sorted.map (fun e => (nrFind [("A", [rowA 1]), ("B", [rowA 2])]
          e.source).getD [])) ∧
      sorted.Perm [⟨"A", "c", some "input-1"⟩, ⟨"B", "c", some "input-0"⟩] ∧
      sorted.Pairwise (fun a b =>
        strLe (getNodeInputData.edgeHandle a) (getNodeInputData.edgeHandle b) = true) :=
  (c8_custom_multi_input_order
    { id := "pc", nodes := [],
      edges := [⟨"A", "c", some "input-1"⟩, ⟨"B", "c", some "input-0"⟩] }
    { id := "c", type := "custom", label := "", position := (0, 0), config := {} }
    [("A", [rowA 1]), ("B", [rowA 2])] rfl
    ⟨"A", "c", some "input-1"⟩ ⟨"B", "c", some "input-0"⟩ [] (by decide)).1

end AgentRaccoon
